import Mathlib

/-!
Verification of the torygg mod-deployment engine.

The development shallowly embeds the core of the torygg sources:

* `find_case_insensitive_path` (torygg/src/util.rs) — the case-insensitive
  path resolver, modelled over a finite association-list filesystem;
* `ToryggState.deploy` / `ToryggState.undeploy` (torygg/src/state.rs) — the
  copy-based deploy engine with its backup vault and deployment record;
* `AppLauncher.mount_path` / `AppLauncher.unmount_all` (src/applauncher.rs) —
  the overlay mount session.

Filesystems are finite maps from paths (lists of components) to nodes
(directories or files with string contents).  External effects (the overlay
and unmount tools, `fs::rename` outcomes) are supplied as explicit oracle
parameters.  A Rust `unwrap()`/`expect()` panic is modelled as the error
value `panic` / `none` propagated to the caller.
-/

namespace Torygg

/-- A filesystem path, relative to some root, as its list of components. -/
abbrev Fpath := List String

/-- A filesystem node: a directory or a file with contents. -/
inductive Node where
  | dir : Node
  | file : String → Node
deriving DecidableEq

/-- A filesystem under a fixed root directory: a finite association list from
relative paths to nodes.  The root itself (path `[]`) always exists as a
directory and is not an entry. -/
abbrev Fs := List (Fpath × Node)

/-- Lookup of the node stored at a path (first match wins). -/
def fsGet : Fs → Fpath → Option Node
  | [], _ => none
  | e :: rest, p => if e.1 = p then some e.2 else fsGet rest p

/-- The list of keys (paths) of a filesystem. -/
def keysOf (fs : Fs) : List Fpath := fs.map (·.1)

/-- `Path::exists` — the root `[]` always exists. -/
def existsb (fs : Fs) (p : Fpath) : Bool :=
  p.isEmpty || (fsGet fs p).isSome

/-- `Path::is_dir` — the root `[]` is always a directory. -/
def isDirb (fs : Fs) (p : Fpath) : Bool :=
  p.isEmpty ||
    (match fsGet fs p with
     | some .dir => true
     | _ => false)

/-- `Path::is_file`. -/
def isFileb (fs : Fs) (p : Fpath) : Bool :=
  match fsGet fs p with
  | some (.file _) => true
  | _ => false

/-- Names of the direct children of directory `p`. -/
def childNames (fs : Fs) (p : Fpath) : List String :=
  fs.filterMap fun e => if e.1 ≠ [] ∧ e.1.dropLast = p then e.1.getLast? else none

/-- `std::fs::read_dir`: the entry names of an existing directory, `none`
(an `Err`) if the path is not an existing directory.  The root `[]` always
reads successfully. -/
def readDir (fs : Fs) (p : Fpath) : Option (List String) :=
  if p = [] then some (childNames fs [])
  else
    match fsGet fs p with
    | some .dir => some (childNames fs p)
    | _ => none

/-- `unicase::eq` modelled as equality after lower-casing each character
(ASCII case folding over the underlying character list). -/
def caseEq (a b : String) : Bool :=
  a.data.map Char.toLower == b.data.map Char.toLower

/-! ## The path resolver (torygg/src/util.rs, `find_case_insensitive_path`)

The loop of the Rust function, with the remaining components, the
accumulated `result` and the `path_exists` flag made explicit.  The
`read_dir().unwrap()` panic on a failed directory read is modelled as the
resolver returning `none`. -/

def fcipAux (fs : Fs) : List String → Fpath → Bool → Option Fpath
  | [], result, _ => some result
  | c :: rest, result, false => fcipAux fs rest (result ++ [c]) false
  | c :: rest, result, true =>
    match readDir fs result with
    | none => none
    | some names =>
      match names.find? (fun n => caseEq n c) with
      | some n => fcipAux fs rest (result ++ [n]) true
      | none => fcipAux fs rest (result ++ [c]) false

/-- `find_case_insensitive_path(root, relative)` with `fs` the tree under
`root`. -/
def find_case_insensitive_path (fs : Fs) (relative : Fpath) : Option Fpath :=
  fcipAux fs relative [] true

/-- Instrumentation: the list of directory paths the resolver hands to
`read_dir`, in order, including a final failing read if one occurs. -/
def fcipReads (fs : Fs) : List String → Fpath → Bool → List Fpath
  | [], _, _ => []
  | c :: rest, result, false => fcipReads fs rest (result ++ [c]) false
  | c :: rest, result, true =>
    result ::
      (match readDir fs result with
       | none => []
       | some names =>
         match names.find? (fun n => caseEq n c) with
         | some n => fcipReads fs rest (result ++ [n]) true
         | none => fcipReads fs rest (result ++ [c]) false)

/-! ### Basic facts about the filesystem model -/

theorem fsGet_isSome_iff {fs : Fs} {p : Fpath} :
    (fsGet fs p).isSome ↔ p ∈ keysOf fs := by
  induction fs with
  | nil => simp [fsGet, keysOf]
  | cons e rest ih =>
    simp only [keysOf, List.map_cons, List.mem_cons]
    by_cases h : e.1 = p
    · rw [fsGet, if_pos h]
      constructor
      · intro _; exact Or.inl h.symm
      · intro _; rfl
    · rw [fsGet, if_neg h]
      rw [keysOf] at ih
      rw [ih]
      constructor
      · exact fun hm => Or.inr hm
      · rintro (hm | hm)
        · exact absurd hm.symm h
        · exact hm

theorem fsGet_some_mem {fs : Fs} {p : Fpath} {n : Node}
    (h : fsGet fs p = some n) : (p, n) ∈ fs := by
  induction fs with
  | nil => simp [fsGet] at h
  | cons e rest ih =>
    obtain ⟨q, m⟩ := e
    by_cases he : q = p
    · subst he
      rw [fsGet, if_pos rfl] at h
      cases h
      exact List.mem_cons_self _ _
    · rw [fsGet] at h
      simp only at h
      rw [if_neg he] at h
      exact List.mem_cons_of_mem _ (ih h)

theorem childNames_mem {fs : Fs} {p : Fpath} {n : String}
    (h : n ∈ childNames fs p) : p ++ [n] ∈ keysOf fs := by
  rw [childNames, List.mem_filterMap] at h
  obtain ⟨e, he, heq⟩ := h
  by_cases hc : e.1 ≠ [] ∧ e.1.dropLast = p
  · rw [if_pos hc] at heq
    rcases e.1.eq_nil_or_concat with h0 | ⟨l, a, hl⟩
    · exact absurd h0 hc.1
    · rw [List.concat_eq_append] at hl
      have h1 : l = p := by
        have := hc.2
        rwa [hl, List.dropLast_concat] at this
      have h2 : a = n := by
        have := heq
        rw [hl, List.getLast?_concat] at this
        exact Option.some.inj this
      have hkey : e.1 = p ++ [n] := by rw [hl, h1, h2]
      rw [← hkey]
      exact List.mem_map_of_mem _ he
  · rw [if_neg hc] at heq
    cases heq

theorem mem_keysOf_exists_node {fs : Fs} {p : Fpath} (h : p ∈ keysOf fs) :
    (fsGet fs p).isSome := fsGet_isSome_iff.mpr h

theorem readDir_some_childNames {fs : Fs} {p : Fpath} {names : List String}
    (h : readDir fs p = some names) : names = childNames fs p := by
  by_cases h0 : p = []
  · rw [readDir, if_pos h0] at h
    rw [h0]
    exact (Option.some.inj h).symm
  · rw [readDir, if_neg h0] at h
    cases hg : fsGet fs p with
    | none => rw [hg] at h; cases h
    | some nd =>
      cases nd with
      | dir => rw [hg] at h; exact (Option.some.inj h).symm
      | file s => rw [hg] at h; cases h

/-! ### C3: the resolver reads only paths found on disk, and passes
components through verbatim after the first miss -/

theorem fcipAux_false_eq (fs : Fs) (rest : List String) (result : Fpath) :
    fcipAux fs rest result false = some (result ++ rest) := by
  induction rest generalizing result with
  | nil => simp [fcipAux]
  | cons c cs ih =>
    rw [fcipAux, ih]
    simp

theorem fcipReads_false_eq (fs : Fs) (rest : List String) (result : Fpath) :
    fcipReads fs rest result false = [] := by
  induction rest generalizing result with
  | nil => simp [fcipReads]
  | cons c cs ih => rw [fcipReads]; exact ih _

theorem fcipReads_all_found (fs : Fs) (rest : List String) (result : Fpath)
    (hres : result = [] ∨ (fsGet fs result).isSome) :
    ∀ q ∈ fcipReads fs rest result true, q = [] ∨ (fsGet fs q).isSome := by
  induction rest generalizing result with
  | nil => simp [fcipReads]
  | cons c cs ih =>
    intro q hq
    rw [fcipReads] at hq
    rcases List.mem_cons.mp hq with hq | hq
    · rw [hq]; exact hres
    · cases hrd : readDir fs result with
      | none => rw [hrd] at hq; cases hq
      | some names =>
        cases hf : names.find? (fun n => caseEq n c) with
        | some n =>
          simp only [hrd, hf] at hq
          refine ih (result ++ [n]) (Or.inr ?_) q hq
          have hmemn : n ∈ childNames fs result := by
            rw [← readDir_some_childNames hrd]
            exact List.mem_of_find?_eq_some hf
          exact mem_keysOf_exists_node (childNames_mem hmemn)
        | none =>
          simp only [hrd, hf, fcipReads_false_eq] at hq
          cases hq

/-- C3: for every tree under an existing root and every relative path, the
resolver matches components case-insensitively only while every prefix so
far was found on disk — every directory it attempts to read exists (the
root, or a path assembled from entry names actually found) — and from the
first component with no case-insensitive match onward (the `path_exists`
flag flipped to `false`) it appends the requested components verbatim and
performs no further directory reads. -/
theorem c3_resolver_reads_exist_and_miss_verbatim (fs : Fs) (rel : List String) :
    (∀ q ∈ fcipReads fs rel [] true, q = [] ∨ (fsGet fs q).isSome) ∧
    (∀ (rest : List String) (result : Fpath),
      fcipAux fs rest result false = some (result ++ rest) ∧
      fcipReads fs rest result false = []) := by
  refine ⟨fcipReads_all_found fs rel [] (Or.inl rfl), ?_⟩
  intro rest result
  exact ⟨fcipAux_false_eq fs rest result, fcipReads_false_eq fs rest result⟩

/-! ### C8: a failed directory read of a matched prefix is a hard error -/

theorem fcipAux_none_iff (fs : Fs) (rest : List String) (result : Fpath) :
    fcipAux fs rest result true = none ↔
      ∃ q ∈ fcipReads fs rest result true, readDir fs q = none := by
  induction rest generalizing result with
  | nil => simp [fcipAux, fcipReads]
  | cons c cs ih =>
    rw [fcipAux, fcipReads]
    cases hrd : readDir fs result with
    | none =>
      simp only [true_iff]
      exact ⟨result, List.mem_cons_self _ _, hrd⟩
    | some names =>
      cases hf : names.find? (fun n => caseEq n c) with
      | some n =>
        simp only [hf]
        rw [ih]
        constructor
        · rintro ⟨q, hq, hqrd⟩
          exact ⟨q, List.mem_cons_of_mem _ hq, hqrd⟩
        · rintro ⟨q, hq, hqrd⟩
          rcases List.mem_cons.mp hq with hq | hq
          · rw [hq] at hqrd; rw [hqrd] at hrd; cases hrd
          · exact ⟨q, hq, hqrd⟩
      | none =>
        simp only [hf, fcipAux_false_eq, fcipReads_false_eq]
        constructor
        · intro h; cases h
        · rintro ⟨q, hq, hqrd⟩
          rcases List.mem_cons.mp hq with hq | hq
          · rw [hq] at hqrd; rw [hqrd] at hrd; cases hrd
          · cases hq

/-- C8: the resolver fails to produce a path exactly when one of its
directory reads — all of which are of the accumulated, so-far-matched
prefix — fails; the failure (the `unwrap` panic on `read_dir`) is a hard
error surfaced to the caller, never silently guessed around by falling
back to the requested casing. -/
theorem c8_read_failure_hard_error (fs : Fs) (rel : List String) :
    find_case_insensitive_path fs rel = none ↔
      ∃ q ∈ fcipReads fs rel [] true, readDir fs q = none :=
  fcipAux_none_iff fs rel []

/-! ### C4: idempotence of path resolution

`correctlyCased fs rel` renders the claim's "already correctly cased with
respect to that tree": walking `rel`, each component for which the current
prefix directory offers a case-insensitive match is itself literally one of
that directory's entries (and the walk continues below it); a component with
no case-insensitive match is brand new, and everything below it is
unconstrained. -/

def correctlyCasedAux (fs : Fs) : Fpath → List String → Bool
  | _, [] => true
  | result, c :: rest =>
    match readDir fs result with
    | none => false
    | some names =>
      match names.find? (fun n => caseEq n c) with
      | none => true
      | some _ => names.contains c && correctlyCasedAux fs (result ++ [c]) rest

def correctlyCased (fs : Fs) (rel : Fpath) : Bool := correctlyCasedAux fs [] rel

/-- No two entries of one directory may differ only by case. -/
def namesUnique : List String → Bool
  | [] => true
  | n :: rest => rest.all (fun m => !caseEq n m || n == m) && namesUnique rest

/-- Every directory of the tree (the root and every entry) has
case-insensitively unique entry names. -/
def caseUniqueFs (fs : Fs) : Bool :=
  namesUnique (childNames fs []) && fs.all fun e => namesUnique (childNames fs e.1)

theorem caseEq_comm {a b : String} (h : caseEq a b = true) : caseEq b a = true := by
  rw [caseEq, beq_iff_eq] at h ⊢
  exact h.symm

theorem namesUnique_spec {l : List String} (h : namesUnique l = true) :
    ∀ n ∈ l, ∀ m ∈ l, caseEq n m = true → n = m := by
  induction l with
  | nil => intro n hn; cases hn
  | cons a rest ih =>
    rw [namesUnique, Bool.and_eq_true, List.all_eq_true] at h
    intro n hn m hm hc
    rcases List.mem_cons.mp hn with h1 | h1
    · rcases List.mem_cons.mp hm with h2 | h2
      · rw [h1, h2]
      · have ha := h.1 m h2
        rw [h1] at hc
        rw [hc] at ha
        simp only [Bool.not_true, Bool.false_or] at ha
        rw [h1]
        exact beq_iff_eq.mp ha
    · rcases List.mem_cons.mp hm with h2 | h2
      · have ha := h.1 n h1
        rw [h2] at hc
        rw [caseEq_comm hc] at ha
        simp only [Bool.not_true, Bool.false_or] at ha
        rw [h2]
        exact (beq_iff_eq.mp ha).symm
      · exact ih h.2 n h1 m h2 hc

theorem readDir_names_unique {fs : Fs} {p : Fpath} {names : List String}
    (hu : caseUniqueFs fs = true) (h : readDir fs p = some names) :
    namesUnique names = true := by
  rw [caseUniqueFs, Bool.and_eq_true, List.all_eq_true] at hu
  rw [readDir_some_childNames h]
  by_cases h0 : p = []
  · rw [h0]; exact hu.1
  · rw [readDir, if_neg h0] at h
    cases hg : fsGet fs p with
    | none => rw [hg] at h; cases h
    | some nd =>
      cases nd with
      | dir => exact hu.2 (p, .dir) (fsGet_some_mem hg)
      | file s => rw [hg] at h; cases h

theorem fcipAux_correctlyCased (fs : Fs) (hu : caseUniqueFs fs = true) :
    ∀ (rest : List String) (result : Fpath),
      correctlyCasedAux fs result rest = true →
      fcipAux fs rest result true = some (result ++ rest) := by
  intro rest
  induction rest with
  | nil => intro result _; simp [fcipAux]
  | cons c cs ih =>
    intro result hcc
    cases hrd : readDir fs result with
    | none =>
      rw [correctlyCasedAux] at hcc
      simp only [hrd] at hcc
      exact Bool.noConfusion hcc
    | some names =>
      cases hf : names.find? (fun n => caseEq n c) with
      | none =>
        rw [fcipAux]
        simp only [hrd, hf, fcipAux_false_eq]
        simp
      | some n =>
        rw [correctlyCasedAux] at hcc
        simp only [hrd, hf, Bool.and_eq_true] at hcc
        have hceq : caseEq n c = true := by simpa using List.find?_some hf
        have hnmem : n ∈ names := List.mem_of_find?_eq_some hf
        have hcmem : c ∈ names := by
          have := hcc.1
          simpa using this
        have hnc : n = c :=
          namesUnique_spec (readDir_names_unique hu hrd) n hnmem c hcmem hceq
        rw [fcipAux]
        simp only [hrd, hf, hnc]
        rw [ih (result ++ [c]) hcc.2]
        simp

/-- C4 (counterexample): on a tree whose root holds both `File` and `file`,
the relative path `file` is correctly cased, yet the resolver adopts the
first case-insensitive match `File` and does not return the path
unchanged — idempotence as claimed fails when a directory contains two
entries differing only by case. -/
theorem c4_counterexample :
    correctlyCased [(["File"], Node.file "x"), (["file"], Node.file "y")] ["file"] = true ∧
    find_case_insensitive_path
        [(["File"], Node.file "x"), (["file"], Node.file "y")] ["file"] = some ["File"] ∧
    find_case_insensitive_path
        [(["File"], Node.file "x"), (["file"], Node.file "y")] ["file"] ≠ some ["file"] := by
  refine ⟨by decide, by decide, by decide⟩

/-- C4 (amended): path resolution is idempotent provided no directory of
the tree holds two entries whose names differ only by case: for every such
tree and every relative path already correctly cased with respect to it
(including a correctly-cased known prefix with brand-new lower
components), the resolver returns the path unchanged.  (Resolution in the
model is a pure function, hence deterministic for a fixed snapshot and
free of writes.) -/
theorem c4_idempotent_of_case_unique (fs : Fs) (rel : Fpath)
    (hu : caseUniqueFs fs = true) (hcc : correctlyCased fs rel = true) :
    find_case_insensitive_path fs rel = some rel :=
  fcipAux_correctlyCased fs hu rel [] hcc

/-- C4 (witness): the amended theorem applied to a concrete two-level tree
and the correctly-cased path `Data/a.txt`, with a brand-new component
`new.txt` exercised through the same resolver. -/
theorem c4_idempotent_witness :
    caseUniqueFs [(["Data"], Node.dir), (["Data", "a.txt"], Node.file "z")] = true ∧
    correctlyCased [(["Data"], Node.dir), (["Data", "a.txt"], Node.file "z")]
      ["Data", "a.txt"] = true ∧
    find_case_insensitive_path [(["Data"], Node.dir), (["Data", "a.txt"], Node.file "z")]
      ["Data", "a.txt"] = some ["Data", "a.txt"] :=
  ⟨by decide, by decide,
    c4_idempotent_of_case_unique _ _ (by decide) (by decide)⟩

/-! ## The copy-based deploy engine (torygg/src/state.rs)

`ToryggState::deploy` walks each enabled mod's tree (the walk entries are
given as data, in `WalkDir` order), resolves every destination with the
path resolver against the live target tree, creates directories, displaces
pre-existing ("unmanaged") files into the backup vault, copies mod files
over the destination and accumulates the deployment record.
`ToryggState::undeploy` removes the recorded paths in reverse order and
then restores the vault.  Persistence (`self.write()`) is not modelled;
`StepState.movedDir` and `StepState.backups` are instrumentation recording
whether a rename into the vault ever moved a directory, and which paths
were renamed into the vault, without influencing control flow. -/

inductive DeployErr where
  | alreadyDeployed
  | notDeployed
  | ioError
  | panic
deriving DecidableEq

/-- Remove the entry stored at exactly path `p`. -/
def removeKey : Fs → Fpath → Fs
  | [], _ => []
  | e :: rest, p => if e.1 = p then removeKey rest p else e :: removeKey rest p

/-- Overwrite (or create) the file at `p`. -/
def setFile (fs : Fs) (p : Fpath) (c : String) : Fs :=
  (p, .file c) :: removeKey fs p

/-- `fs::create_dir`: fails if the path exists or the parent is not a
directory. -/
def createDir (fs : Fs) (p : Fpath) : Option Fs :=
  if existsb fs p then none
  else if isDirb fs p.dropLast then some ((p, .dir) :: fs) else none

/-- `fs::copy(from, to)`: fails onto a directory and fails when the
destination is new and its parent directory is missing; otherwise writes
the file. -/
def copyFile (fs : Fs) (p : Fpath) (c : String) : Option Fs :=
  if isDirb fs p then none
  else if (fsGet fs p).isSome then some (setFile fs p c)
  else if isDirb fs p.dropLast then some (setFile fs p c)
  else none

def isPrefOf (p q : Fpath) : Bool := p.isPrefixOf q

/-- The subtree rooted at `p` (including `p` itself). -/
def takeTree (fs : Fs) (p : Fpath) : Fs := fs.filter fun e => isPrefOf p e.1

/-- Drop the subtree rooted at `p`. -/
def removeTree (fs : Fs) (p : Fpath) : Fs := fs.filter fun e => !isPrefOf p e.1

/-- `fs::rename(data_path/p, backup_dir/p)` (POSIX `rename` semantics):
the source must exist, the destination's parent must be a directory, a
file may overwrite a file, a directory may overwrite only an empty
directory; the whole source subtree moves, keeping its relative path. -/
def renameToVault (target vault : Fs) (p : Fpath) : Option (Fs × Fs) :=
  match fsGet target p with
  | none => none
  | some n =>
    if !isDirb vault p.dropLast then none
    else
      match fsGet vault p, n with
      | none, _ => some (removeTree target p, takeTree target p ++ vault)
      | some (.file _), .file _ =>
        some (removeTree target p, takeTree target p ++ removeKey vault p)
      | some (.file _), .dir => none
      | some .dir, .file _ => none
      | some .dir, .dir =>
        if childNames vault p = [] then
          some (removeTree target p, takeTree target p ++ removeTree vault p)
        else none

/-- `backup_dir.maybe_create_child_directory(dir)` for one component. -/
def maybeCreateChildDir (vault : Fs) (c : String) : Option Fs :=
  if existsb vault [c] then
    if isDirb vault [c] then some vault else none
  else some (([c], Node.dir) :: vault)

/-- The backup-parent creation loop of `deploy`: iterating the components
of `to_relative_path.parent()`, each component is created as a child of
the vault root individually. -/
def createBackupDirs : Fs → List String → Option Fs
  | vault, [] => some vault
  | vault, c :: rest =>
    match maybeCreateChildDir vault c with
    | none => none
    | some v' => createBackupDirs v' rest

/-- The loop state of a deploy pass: the live target tree, the vault, the
accumulated deployment record, plus instrumentation. -/
structure StepState where
  target : Fs
  vault : Fs
  result : List Fpath
  movedDir : Bool
  backups : List Fpath
deriving DecidableEq

/-- The copy at the end of a file entry: `fs::copy` then record the
relative path if not already present. -/
def finishCopy (s : StepState) (toRel : Fpath) (c : String) :
    StepState × Option DeployErr :=
  match copyFile s.target toRel c with
  | none => (s, some .ioError)
  | some t' =>
    ({ s with
        target := t'
        result := if toRel ∈ s.result then s.result else s.result ++ [toRel] },
      none)

/-- One `WalkDir` entry of a mod, processed as in the body of the deploy
loop. -/
def processEntry (unmanaged : List Fpath) (s : StepState) (e : Fpath × Node) :
    StepState × Option DeployErr :=
  match find_case_insensitive_path s.target e.1 with
  | none => (s, some .panic)
  | some toRel =>
    match e.2 with
    | .dir =>
      if isDirb s.target toRel then (s, none)
      else
        match createDir s.target toRel with
        | none => (s, some .ioError)
        | some t' => ({ s with target := t', result := s.result ++ [toRel] }, none)
    | .file c =>
      if existsb s.target toRel && unmanaged.contains toRel then
        match createBackupDirs s.vault toRel.dropLast with
        | none => (s, some .ioError)
        | some v' =>
          match renameToVault s.target v' toRel with
          | none => ({ s with vault := v' }, some .ioError)
          | some (t', v'') =>
            finishCopy
              { s with
                  target := t'
                  vault := v''
                  movedDir := s.movedDir || isDirb s.target toRel
                  backups := s.backups ++ [toRel] }
              toRel c
      else finishCopy s toRel c

/-- The deploy loop over the concatenated walks of all enabled mods; an
error stops the loop, leaving the partial on-disk state. -/
def runEntries (unmanaged : List Fpath) :
    StepState → List (Fpath × Node) → StepState × Option DeployErr
  | s, [] => (s, none)
  | s, e :: rest =>
    match processEntry unmanaged s e with
    | (s', none) => runEntries unmanaged s' rest
    | (s', some err) => (s', some err)

/-- A mod's tree as its `WalkDir` entry list (relative path and node). -/
abbrev ModWalk := List (Fpath × Node)

/-- Torygg's persistent state, restricted to what deploy/undeploy touch:
the game data tree, the backup vault and the deployment record
(`deployed_files`). -/
structure ToryggState where
  target : Fs
  vault : Fs
  deployed : Option (List Fpath)
deriving DecidableEq

/-- Result of a deploy call: the new state, the outcome, and the
instrumentation carried out of the loop. -/
structure DeployOut where
  state : ToryggState
  err : Option DeployErr
  movedDir : Bool
  backups : List Fpath
deriving DecidableEq

/-- `ToryggState::deploy`.  `mods` is `profile.enabled_mods()` with each
name replaced by the walk of its mod directory. -/
def ToryggState.deploy (st : ToryggState) (mods : Option (List ModWalk)) : DeployOut :=
  if st.deployed.isSome then ⟨st, some .alreadyDeployed, false, []⟩
  else
    match mods with
    | none => ⟨st, none, false, []⟩
    | some ms =>
      let unmanaged := keysOf st.target
      match runEntries unmanaged ⟨st.target, st.vault, [], false, []⟩ ms.flatten with
      | (s, none) =>
        if s.result.isEmpty then
          ⟨{ st with target := s.target, vault := s.vault }, none, s.movedDir, s.backups⟩
        else
          ⟨{ st with target := s.target, vault := s.vault, deployed := some s.result },
            none, s.movedDir, s.backups⟩
      | (s, some err) =>
        ⟨{ st with target := s.target, vault := s.vault }, some err, s.movedDir, s.backups⟩

/-- One removal attempt of the undeploy loop, as instrumentation: the
path, whether it was removed as a directory, and how many children the
path had at the attempt. -/
structure RemEvent where
  path : Fpath
  wasDir : Bool
  childCount : Nat
deriving DecidableEq

/-- `fs::remove_dir`: only an existing empty directory. -/
def removeDirFs (fs : Fs) (p : Fpath) : Option Fs :=
  match fsGet fs p with
  | some .dir => if childNames fs p = [] then some (removeKey fs p) else none
  | _ => none

/-- `fs::remove_file`: only an existing file. -/
def removeFileFs (fs : Fs) (p : Fpath) : Option Fs :=
  match fsGet fs p with
  | some (.file _) => some (removeKey fs p)
  | _ => none

/-- The removal phase of `undeploy`: walk the given (already reversed)
record; a directory is removed with `remove_dir`, anything else with
`remove_file`; the first failure stops the loop. -/
def removeLoop : Fs → List Fpath → Fs × Option DeployErr × List RemEvent
  | fs, [] => (fs, none, [])
  | fs, p :: rest =>
    if isDirb fs p then
      let ev : RemEvent := ⟨p, true, (childNames fs p).length⟩
      match removeDirFs fs p with
      | none => (fs, some .ioError, [ev])
      | some fs' =>
        match removeLoop fs' rest with
        | (fs'', err, evs) => (fs'', err, ev :: evs)
    else
      let ev : RemEvent := ⟨p, false, (childNames fs p).length⟩
      match removeFileFs fs p with
      | none => (fs, some .ioError, [ev])
      | some fs' =>
        match removeLoop fs' rest with
        | (fs'', err, evs) => (fs'', err, ev :: evs)

/-- Insertion keeping deeper paths first — the contents-first order of the
vault-restoring walk. -/
def insertByDepth (e : Fpath × Node) : Fs → Fs
  | [] => [e]
  | f :: rest =>
    if f.1.length ≤ e.1.length then e :: f :: rest else f :: insertByDepth e rest

def sortByDepthDesc (fs : Fs) : Fs := fs.foldr insertByDepth []

/-- One step of the vault-restoring walk: a file is renamed back onto its
mirrored target path, a directory (now empty) is removed from the vault;
any failure is an `unwrap` panic. -/
def restoreStep (target vault : Fs) (e : Fpath × Node) : Option (Fs × Fs) :=
  match e.2 with
  | .file c =>
    match fsGet target e.1 with
    | some .dir => none
    | some (.file _) => some ((e.1, Node.file c) :: removeKey target e.1, removeKey vault e.1)
    | none =>
      if isDirb target e.1.dropLast then
        some ((e.1, Node.file c) :: target, removeKey vault e.1)
      else none
  | .dir =>
    match removeDirFs vault e.1 with
    | none => none
    | some v' => some (target, v')

/-- The vault-restoring loop over the contents-first snapshot. -/
def restoreLoop : Fs → Fs → List (Fpath × Node) → Fs × Fs × Option DeployErr
  | target, vault, [] => (target, vault, none)
  | target, vault, e :: rest =>
    match restoreStep target vault e with
    | none => (target, vault, some .panic)
    | some (t', v') => restoreLoop t' v' rest

/-- Result of an undeploy call, with the removal phase's error and events
exposed as instrumentation. -/
structure UndeployOut where
  state : ToryggState
  err : Option DeployErr
  remErr : Option DeployErr
  remTrace : List RemEvent
deriving DecidableEq

/-- `ToryggState::undeploy`. -/
def ToryggState.undeploy (st : ToryggState) : UndeployOut :=
  match st.deployed with
  | none => ⟨st, some .notDeployed, none, []⟩
  | some record =>
    match removeLoop st.target record.reverse with
    | (t1, some e, trace) => ⟨{ st with target := t1 }, some e, some e, trace⟩
    | (t1, none, trace) =>
      match restoreLoop t1 st.vault (sortByDepthDesc st.vault) with
      | (t2, v2, e2) =>
        ⟨{ st with target := t2, vault := v2, deployed := none }, e2, none, trace⟩

/-! ### C1: the at-most-one-backup guarantee is broken by the code

The deploy loop moves a destination into the vault whenever it exists and
is a member of the unmanaged snapshot; it never checks whether the vault
already holds that path (the spec's "and is not already in the Backup
Vault").  With two enabled mods both supplying a pre-existing path, the
second displacement renames the first mod's copy over the original
backup. -/

def c1State : ToryggState := ⟨[(["f.txt"], Node.file "orig")], [], none⟩

def c1Mods : List ModWalk :=
  [[(["f.txt"], Node.file "m1")], [(["f.txt"], Node.file "m2")]]

/-- C1 (code bug): on a target holding the unmanaged file `f.txt` with
contents `orig` and two enabled mods both supplying `f.txt`, the deploy
pass succeeds but renames `f.txt` into the Backup Vault twice, and at the
end of the pass the vault holds the first mod's copy `m1` — not the
original pre-deployment contents — contradicting the claimed at-most-one
backup invariant. -/
theorem c1_backup_overwritten :
    (c1State.deploy (some c1Mods)).err = none ∧
    (c1State.deploy (some c1Mods)).backups = [["f.txt"], ["f.txt"]] ∧
    fsGet (c1State.deploy (some c1Mods)).state.vault ["f.txt"] = some (Node.file "m1") ∧
    fsGet (c1State.deploy (some c1Mods)).state.vault ["f.txt"] ≠ some (Node.file "orig") := by
  refine ⟨by decide, by decide, by decide, by decide⟩

/-! ### C9: deploy with zero enabled mods is a successful no-op -/

/-- C9: when no deployment record exists, a deploy with zero enabled mods
(`enabled_mods()` returning `None`, or an empty mod list) succeeds,
writes no deployment record, and leaves the whole state — in particular
every file and directory of the target tree — unchanged. -/
theorem c9_noop_deploy (st : ToryggState) (h : st.deployed = none) :
    st.deploy none = ⟨st, none, false, []⟩ ∧
    st.deploy (some []) = ⟨st, none, false, []⟩ := by
  obtain ⟨t, v, d⟩ := st
  replace h : d = none := h
  subst h
  exact ⟨rfl, rfl⟩

/-- C9 (witness): the no-op deploy evaluated on a concrete undeployed
state with a non-trivial target tree. -/
theorem c9_noop_deploy_witness :
    (⟨[(["Data"], Node.dir)], [], none⟩ : ToryggState).deployed = none ∧
    (⟨[(["Data"], Node.dir)], [], none⟩ : ToryggState).deploy none =
      ⟨⟨[(["Data"], Node.dir)], [], none⟩, none, false, []⟩ ∧
    (⟨[(["Data"], Node.dir)], [], none⟩ : ToryggState).deploy (some []) =
      ⟨⟨[(["Data"], Node.dir)], [], none⟩, none, false, []⟩ :=
  ⟨rfl, (c9_noop_deploy _ rfl).1, (c9_noop_deploy _ rfl).2⟩

/-! ### C2: the reject conditions of deploy and undeploy -/

theorem finishCopy_err {s s' : StepState} {toRel : Fpath} {c : String} {err : DeployErr}
    (h : finishCopy s toRel c = (s', some err)) : err = .ioError := by
  rw [finishCopy] at h
  cases hc : copyFile s.target toRel c with
  | none =>
    simp only [hc, Prod.mk.injEq] at h
    exact (Option.some.inj h.2).symm
  | some t' =>
    simp only [hc, Prod.mk.injEq] at h
    exact Option.noConfusion h.2

theorem processEntry_err {u : List Fpath} {s s' : StepState} {e : Fpath × Node}
    {err : DeployErr} (h : processEntry u s e = (s', some err)) :
    err = .ioError ∨ err = .panic := by
  rw [processEntry] at h
  cases hre : find_case_insensitive_path s.target e.1 with
  | none =>
    simp only [hre, Prod.mk.injEq] at h
    exact Or.inr (Option.some.inj h.2).symm
  | some toRel =>
    simp only [hre] at h
    cases he : e.2 with
    | dir =>
      simp only [he] at h
      by_cases hd : isDirb s.target toRel = true
      · simp only [hd, if_true, Prod.mk.injEq] at h
        exact Option.noConfusion h.2
      · simp only [hd, if_false, Bool.false_eq_true] at h
        cases hcd : createDir s.target toRel with
        | none =>
          simp only [hcd, Prod.mk.injEq] at h
          exact Or.inl (Option.some.inj h.2).symm
        | some t' =>
          simp only [hcd, Prod.mk.injEq] at h
          exact Option.noConfusion h.2
    | file c =>
      simp only [he] at h
      by_cases hb : (existsb s.target toRel && u.contains toRel) = true
      · simp only [hb, if_true] at h
        cases hbd : createBackupDirs s.vault toRel.dropLast with
        | none =>
          simp only [hbd, Prod.mk.injEq] at h
          exact Or.inl (Option.some.inj h.2).symm
        | some v' =>
          simp only [hbd] at h
          cases hrn : renameToVault s.target v' toRel with
          | none =>
            simp only [hrn, Prod.mk.injEq] at h
            exact Or.inl (Option.some.inj h.2).symm
          | some tv =>
            obtain ⟨t', v''⟩ := tv
            simp only [hrn] at h
            exact Or.inl (finishCopy_err h)
      · simp only [hb, if_false, Bool.false_eq_true] at h
        exact Or.inl (finishCopy_err h)

theorem runEntries_err {u : List Fpath} :
    ∀ {es : List (Fpath × Node)} {s s' : StepState} {err : DeployErr},
      runEntries u s es = (s', some err) → err = .ioError ∨ err = .panic := by
  intro es
  induction es with
  | nil =>
    intro s s' err h
    rw [runEntries] at h
    exact Option.noConfusion (congrArg Prod.snd h)
  | cons e rest ih =>
    intro s s' err h
    rw [runEntries] at h
    cases hp : processEntry u s e with
    | mk s1 o =>
      cases o with
      | none =>
        simp only [hp] at h
        exact ih h
      | some e1 =>
        simp only [hp, Prod.mk.injEq] at h
        rcases processEntry_err hp with h1 | h1 <;>
          rw [← Option.some.inj h.2, h1]
        · exact Or.inl rfl
        · exact Or.inr rfl

theorem removeLoop_err :
    ∀ {r : List Fpath} {fs fs' : Fs} {err : DeployErr} {evs : List RemEvent},
      removeLoop fs r = (fs', some err, evs) → err = .ioError := by
  intro r
  induction r with
  | nil =>
    intro fs fs' err evs h
    rw [removeLoop] at h
    exact Option.noConfusion (congrArg (fun x => x.2.1) h)
  | cons p rest ih =>
    intro fs fs' err evs h
    rw [removeLoop] at h
    by_cases hd : isDirb fs p = true
    · simp only [hd, if_true] at h
      cases hrm : removeDirFs fs p with
      | none =>
        simp only [hrm, Prod.mk.injEq] at h
        exact (Option.some.inj h.2.1).symm
      | some fs1 =>
        simp only [hrm] at h
        cases hrl : removeLoop fs1 rest with
        | mk fs2 pr =>
          obtain ⟨o, evs2⟩ := pr
          simp only [hrl, Prod.mk.injEq] at h
          obtain ⟨-, h2, -⟩ := h
          rw [h2] at hrl
          exact ih hrl
    · simp only [hd, if_false, Bool.false_eq_true] at h
      cases hrm : removeFileFs fs p with
      | none =>
        simp only [hrm, Prod.mk.injEq] at h
        exact (Option.some.inj h.2.1).symm
      | some fs1 =>
        simp only [hrm] at h
        cases hrl : removeLoop fs1 rest with
        | mk fs2 pr =>
          obtain ⟨o, evs2⟩ := pr
          simp only [hrl, Prod.mk.injEq] at h
          obtain ⟨-, h2, -⟩ := h
          rw [h2] at hrl
          exact ih hrl

theorem restoreLoop_err :
    ∀ {es : List (Fpath × Node)} {target vault t' v' : Fs} {err : DeployErr},
      restoreLoop target vault es = (t', v', some err) → err = .panic := by
  intro es
  induction es with
  | nil =>
    intro target vault t' v' err h
    rw [restoreLoop] at h
    exact Option.noConfusion (congrArg (fun x => x.2.2) h)
  | cons e rest ih =>
    intro target vault t' v' err h
    rw [restoreLoop] at h
    cases hstep : restoreStep target vault e with
    | none =>
      simp only [hstep, Prod.mk.injEq] at h
      exact (Option.some.inj h.2.2).symm
    | some tv =>
      obtain ⟨t1, v1⟩ := tv
      simp only [hstep] at h
      exact ih h

/-- C2: `deploy` fails with `AlreadyDeployed` exactly when a (necessarily
non-empty, by the state's invariant) deployment record exists at entry,
and the rejected call returns the state unchanged; `undeploy` fails with
`NotDeployed` exactly when no deployment record exists at entry, and the
rejected call returns the state unchanged.  (No other code path produces
these two errors.) -/
theorem c2_reject_conditions (st : ToryggState) (mods : Option (List ModWalk))
    (hwf : ∀ l, st.deployed = some l → l ≠ []) :
    ((st.deploy mods).err = some .alreadyDeployed ↔ ∃ l, st.deployed = some l ∧ l ≠ []) ∧
    (st.deployed.isSome → st.deploy mods = ⟨st, some .alreadyDeployed, false, []⟩) ∧
    (st.undeploy.err = some .notDeployed ↔ st.deployed = none) ∧
    (st.deployed = none → st.undeploy = ⟨st, some .notDeployed, none, []⟩) := by
  have hreject : st.deployed.isSome → st.deploy mods = ⟨st, some .alreadyDeployed, false, []⟩ := by
    intro h
    rw [ToryggState.deploy.eq_def, if_pos h]
  have hnot : st.deployed = none → st.undeploy = ⟨st, some .notDeployed, none, []⟩ := by
    intro h
    rw [ToryggState.undeploy]
    simp only [h]
  refine ⟨?_, hreject, ?_, hnot⟩
  · constructor
    · intro h
      cases hd : st.deployed with
      | some l => exact ⟨l, rfl, hwf l hd⟩
      | none =>
        exfalso
        rw [ToryggState.deploy.eq_def] at h
        simp only [hd, Option.isSome_none, Bool.false_eq_true, if_false] at h
        cases mods with
        | none => exact Option.noConfusion h
        | some ms =>
          simp only at h
          cases hr : runEntries (keysOf st.target)
              ⟨st.target, st.vault, [], false, []⟩ ms.flatten with
          | mk s o =>
            cases o with
            | none =>
              simp only [hr] at h
              by_cases hne : s.result.isEmpty = true
              · simp only [hne, if_true] at h
                exact Option.noConfusion h
              · simp only [hne, if_false, Bool.false_eq_true] at h
                exact Option.noConfusion h
            | some e1 =>
              simp only [hr] at h
              rcases runEntries_err hr with h1 | h1 <;>
                rw [h1] at h <;> exact DeployErr.noConfusion (Option.some.inj h)
    · rintro ⟨l, hl, -⟩
      have : st.deployed.isSome := by rw [hl]; rfl
      rw [hreject this]
  · constructor
    · intro h
      cases hd : st.deployed with
      | none => rfl
      | some record =>
        exfalso
        rw [ToryggState.undeploy] at h
        simp only [hd] at h
        cases hrl : removeLoop st.target record.reverse with
        | mk t1 pr =>
          obtain ⟨o, trace⟩ := pr
          cases o with
          | some e1 =>
            simp only [hrl] at h
            have := removeLoop_err hrl
            rw [this] at h
            exact DeployErr.noConfusion (Option.some.inj h)
          | none =>
            simp only [hrl] at h
            cases hres : restoreLoop t1 st.vault (sortByDepthDesc st.vault) with
            | mk t2 pr2 =>
              obtain ⟨v2, e2⟩ := pr2
              simp only [hres] at h
              cases e2 with
              | none => exact Option.noConfusion h
              | some e3 =>
                have := restoreLoop_err hres
                rw [this] at h
                exact DeployErr.noConfusion (Option.some.inj h)
    · intro h
      rw [hnot h]

/-- C2 (witness): the reject conditions evaluated at a concrete deployed
state (deploy rejected with `AlreadyDeployed`) and at a concrete
undeployed state (undeploy rejected with `NotDeployed`), both left
unchanged. -/
theorem c2_reject_witness :
    (⟨[], [], some [["a"]]⟩ : ToryggState).deploy none =
      ⟨⟨[], [], some [["a"]]⟩, some .alreadyDeployed, false, []⟩ ∧
    (⟨[], [], none⟩ : ToryggState).undeploy =
      ⟨⟨[], [], none⟩, some .notDeployed, none, []⟩ :=
  ⟨(c2_reject_conditions ⟨[], [], some [["a"]]⟩ none
      (fun l hl => by cases Option.some.inj hl; simp)).2.1 rfl,
    (c2_reject_conditions ⟨[], [], none⟩ none (fun l hl => Option.noConfusion hl)).2.2.2 rfl⟩

/-! ### Toolbox for the deploy-loop invariant (towards C5) -/

theorem fsGet_removeKey_self (fs : Fs) (p : Fpath) :
    fsGet (removeKey fs p) p = none := by
  induction fs with
  | nil => rfl
  | cons e rest ih =>
    rw [removeKey]
    by_cases he : e.1 = p
    · rw [if_pos he]; exact ih
    · rw [if_neg he, fsGet, if_neg he]; exact ih

theorem fsGet_removeKey_ne {fs : Fs} {p q : Fpath} (h : q ≠ p) :
    fsGet (removeKey fs p) q = fsGet fs q := by
  induction fs with
  | nil => rfl
  | cons e rest ih =>
    rw [removeKey]
    by_cases he : e.1 = p
    · rw [if_pos he, fsGet, if_neg (by rw [he]; exact fun hh => h hh.symm)]
      exact ih
    · rw [if_neg he, fsGet, fsGet]
      by_cases heq : e.1 = q
      · rw [if_pos heq, if_pos heq]
      · rw [if_neg heq, if_neg heq]; exact ih

theorem mem_removeKey {fs : Fs} {p : Fpath} {e : Fpath × Node} :
    e ∈ removeKey fs p ↔ e ∈ fs ∧ e.1 ≠ p := by
  induction fs with
  | nil => simp [removeKey]
  | cons f rest ih =>
    rw [removeKey]
    by_cases hf : f.1 = p
    · rw [if_pos hf, ih]
      constructor
      · exact fun ⟨h1, h2⟩ => ⟨List.mem_cons_of_mem _ h1, h2⟩
      · rintro ⟨h1, h2⟩
        rcases List.mem_cons.mp h1 with h1 | h1
        · exact absurd (h1 ▸ hf) h2
        · exact ⟨h1, h2⟩
    · rw [if_neg hf]
      constructor
      · intro h
        rcases List.mem_cons.mp h with h | h
        · exact ⟨h ▸ List.mem_cons_self _ _, h ▸ hf⟩
        · obtain ⟨h1, h2⟩ := ih.mp h
          exact ⟨List.mem_cons_of_mem _ h1, h2⟩
      · rintro ⟨h1, h2⟩
        rcases List.mem_cons.mp h1 with h1 | h1
        · exact h1 ▸ List.mem_cons_self _ _
        · exact List.mem_cons_of_mem _ (ih.mpr ⟨h1, h2⟩)

theorem keysOf_removeKey_sublist (fs : Fs) (p : Fpath) :
    (keysOf (removeKey fs p)).Sublist (keysOf fs) := by
  induction fs with
  | nil => simp [removeKey, keysOf]
  | cons e rest ih =>
    rw [removeKey]
    by_cases he : e.1 = p
    · rw [if_pos he]
      exact ih.trans (List.sublist_cons_self _ _)
    · rw [if_neg he]
      exact List.Sublist.cons₂ _ ih

theorem nodup_keysOf_removeKey {fs : Fs} {p : Fpath}
    (h : (keysOf fs).Nodup) : (keysOf (removeKey fs p)).Nodup :=
  (keysOf_removeKey_sublist fs p).nodup h

theorem mem_keysOf_removeKey {fs : Fs} {p q : Fpath} :
    q ∈ keysOf (removeKey fs p) ↔ q ∈ keysOf fs ∧ q ≠ p := by
  constructor
  · intro h
    obtain ⟨e, he, heq⟩ := List.mem_map.mp h
    obtain ⟨h1, h2⟩ := mem_removeKey.mp he
    exact ⟨heq ▸ List.mem_map_of_mem _ h1, heq ▸ h2⟩
  · rintro ⟨h1, h2⟩
    obtain ⟨e, he, heq⟩ := List.mem_map.mp h1
    exact heq ▸ List.mem_map_of_mem _ (mem_removeKey.mpr ⟨he, heq ▸ h2⟩)

theorem fsGet_setFile_self (fs : Fs) (p : Fpath) (c : String) :
    fsGet (setFile fs p c) p = some (.file c) := by
  rw [setFile, fsGet, if_pos rfl]

theorem fsGet_setFile_ne {fs : Fs} {p q : Fpath} {c : String} (h : q ≠ p) :
    fsGet (setFile fs p c) q = fsGet fs q := by
  rw [setFile, fsGet, if_neg (fun hh => h hh.symm)]
  exact fsGet_removeKey_ne h

theorem mem_keysOf_setFile {fs : Fs} {p q : Fpath} {c : String} :
    q ∈ keysOf (setFile fs p c) ↔ q = p ∨ (q ∈ keysOf fs ∧ q ≠ p) := by
  rw [setFile, keysOf, List.map_cons, List.mem_cons]
  constructor
  · rintro (h | h)
    · exact Or.inl h
    · exact Or.inr (mem_keysOf_removeKey.mp h)
  · rintro (h | h)
    · exact Or.inl h
    · exact Or.inr (mem_keysOf_removeKey.mpr h)

theorem removeKey_idem (fs : Fs) (p : Fpath) :
    removeKey (removeKey fs p) p = removeKey fs p := by
  induction fs with
  | nil => rfl
  | cons e rest ih =>
    rw [removeKey]
    by_cases he : e.1 = p
    · rw [if_pos he]; exact ih
    · rw [if_neg he, removeKey, if_neg he, ih]

/-- Boolean and propositional directory test agree. -/
theorem isDirb_iff {fs : Fs} {p : Fpath} :
    isDirb fs p = true ↔ p = [] ∨ fsGet fs p = some .dir := by
  rw [isDirb, Bool.or_eq_true, List.isEmpty_iff]
  refine or_congr Iff.rfl ?_
  cases h : fsGet fs p with
  | none => simp
  | some n => cases n <;> simp

/-! ### Well-formed filesystems -/

/-- A well-formed tree: keys are unique, no entry sits at the root path,
and every entry's parent is the root or an existing directory. -/
def WFfs (fs : Fs) : Prop :=
  (keysOf fs).Nodup ∧
    ∀ e ∈ fs, e.1 ≠ [] ∧ (e.1.dropLast = [] ∨ fsGet fs e.1.dropLast = some .dir)

theorem WFfs_nil : WFfs [] := ⟨List.nodup_nil, fun e he => absurd he (List.not_mem_nil e)⟩

theorem WFfs_root_none {fs : Fs} (h : WFfs fs) : fsGet fs [] = none := by
  cases hg : fsGet fs [] with
  | none => rfl
  | some n => exact absurd rfl (h.2 _ (fsGet_some_mem hg)).1

theorem dropLast_ne_self {p : Fpath} (h : p ≠ []) : p.dropLast ≠ p := by
  intro hh
  have := congrArg List.length hh
  rw [List.length_dropLast] at this
  have hlen : 0 < p.length := List.length_pos.mpr h
  omega

theorem prefix_of_dropLast {p q : Fpath} {a : String}
    (hpre : p <+: q ++ [a]) (hne : p ≠ q ++ [a]) : p <+: q := by
  obtain ⟨t, ht⟩ := hpre
  rcases t.eq_nil_or_concat with rfl | ⟨t', b, rfl⟩
  · rw [List.append_nil] at ht
    exact absurd ht hne
  · rw [List.concat_eq_append, ← List.append_assoc] at ht
    have := List.append_inj' ht rfl
    exact ⟨t', this.1⟩

/-- In a well-formed tree, every proper non-root ancestor of an existing
path is a directory. -/
theorem wf_ancestor_dir {fs : Fs} (hwf : WFfs fs) :
    ∀ (q : Fpath) (n : Node), fsGet fs q = some n →
      ∀ p, p ≠ [] → p <+: q → p ≠ q → fsGet fs p = some .dir := by
  intro q
  induction q using List.reverseRecOn with
  | nil =>
    intro n hn p hp hpre hne
    exact absurd (List.prefix_nil.mp hpre) hp
  | append_singleton q' a ih =>
    intro n hn p hp hpre hne
    have hent := hwf.2 _ (fsGet_some_mem hn)
    have hpre' : p <+: q' := prefix_of_dropLast hpre hne
    have hdrop : (q' ++ [a]).dropLast = q' := by
      rw [List.dropLast_concat]
    rcases hent.2 with hq0 | hqdir
    · rw [hdrop] at hq0
      rw [hq0] at hpre'
      exact absurd (List.prefix_nil.mp hpre') hp
    · rw [hdrop] at hqdir
      by_cases hpq : p = q'
      · rw [hpq]; exact hqdir
      · exact ih .dir hqdir p hp hpre' hpq

theorem childNames_ne_nil_of_child {fs : Fs} {p : Fpath} {e : Fpath × Node}
    (he : e ∈ fs) (h1 : e.1 ≠ []) (h2 : e.1.dropLast = p) :
    childNames fs p ≠ [] := by
  intro hnil
  rcases e.1.eq_nil_or_concat with h0 | ⟨l, a, hl⟩
  · exact h1 h0
  · rw [List.concat_eq_append] at hl
    have ha : a ∈ childNames fs p := by
      rw [childNames, List.mem_filterMap]
      refine ⟨e, he, ?_⟩
      rw [if_pos ⟨h1, h2⟩, hl, List.getLast?_concat]
    rw [hnil] at ha
    cases ha

theorem childNames_nil_of_file {fs : Fs} {p : Fpath} {c : String}
    (hwf : WFfs fs) (h : fsGet fs p = some (.file c)) : childNames fs p = [] := by
  by_contra hne
  obtain ⟨n, hn⟩ := List.exists_mem_of_ne_nil _ hne
  have hkey := childNames_mem hn
  have hsome := mem_keysOf_exists_node hkey
  obtain ⟨m, hm⟩ := Option.isSome_iff_exists.mp hsome
  have hent := hwf.2 _ (fsGet_some_mem hm)
  have hdrop : (p ++ [n]).dropLast = p := by
    rw [List.dropLast_concat]
  rcases hent.2 with h0 | hdir
  · rw [hdrop] at h0
    rw [h0] at h
    exact absurd rfl (hwf.2 _ (fsGet_some_mem h)).1
  · rw [hdrop] at hdir
    rw [h] at hdir
    exact Node.noConfusion (Option.some.inj hdir)

theorem parent_cond_of_mem {fs : Fs} {p : Fpath} {n : Node}
    (hwf : WFfs fs) (h : fsGet fs p = some n) :
    p.dropLast = [] ∨ fsGet fs p.dropLast = some .dir :=
  (hwf.2 _ (fsGet_some_mem h)).2

/-! ### WFfs preservation -/

theorem WFfs_insertDir {fs : Fs} {p : Fpath}
    (hwf : WFfs fs) (hp : p ≠ []) (hnone : fsGet fs p = none)
    (hpar : p.dropLast = [] ∨ fsGet fs p.dropLast = some .dir) :
    WFfs ((p, Node.dir) :: fs) := by
  have hpnotin : p ∉ keysOf fs := fun hh =>
    Option.isSome_iff_exists.mp (mem_keysOf_exists_node hh) |>.elim
      fun m hm => Option.noConfusion (hnone ▸ hm)
  constructor
  · rw [keysOf, List.map_cons]
    exact List.Nodup.cons hpnotin hwf.1
  · intro e he
    have hfget : ∀ q, q ≠ p → fsGet ((p, Node.dir) :: fs) q = fsGet fs q := by
      intro q hq
      rw [fsGet, if_neg (fun hh => hq hh.symm)]
    rcases List.mem_cons.mp he with rfl | he
    · refine ⟨hp, ?_⟩
      rcases hpar with h0 | hdir
      · exact Or.inl h0
      · refine Or.inr ?_
        rw [hfget _ (dropLast_ne_self hp), hdir]
    · obtain ⟨h1, h2⟩ := hwf.2 e he
      refine ⟨h1, ?_⟩
      rcases h2 with h0 | hdir
      · exact Or.inl h0
      · by_cases hq : e.1.dropLast = p
        · refine Or.inr ?_
          rw [fsGet, if_pos hq.symm]
        · refine Or.inr ?_
          rw [hfget _ hq, hdir]

theorem WFfs_setFile {fs : Fs} {p : Fpath} {c : String}
    (hwf : WFfs fs) (hp : p ≠ []) (hnd : fsGet fs p ≠ some .dir)
    (hpar : p.dropLast = [] ∨ fsGet fs p.dropLast = some .dir) :
    WFfs (setFile fs p c) := by
  have hpnotin : p ∉ keysOf (removeKey fs p) := fun hh => by
    have := mem_keysOf_exists_node hh
    rw [fsGet_removeKey_self] at this
    cases this
  constructor
  · rw [setFile, keysOf, List.map_cons]
    exact List.Nodup.cons hpnotin (nodup_keysOf_removeKey hwf.1)
  · intro e he
    rw [setFile] at he
    rcases List.mem_cons.mp he with rfl | he
    · refine ⟨hp, ?_⟩
      rcases hpar with h0 | hdir
      · exact Or.inl h0
      · refine Or.inr ?_
        rw [fsGet_setFile_ne (dropLast_ne_self hp), hdir]
    · obtain ⟨hin, hne⟩ := mem_removeKey.mp he
      obtain ⟨h1, h2⟩ := hwf.2 e hin
      refine ⟨h1, ?_⟩
      rcases h2 with h0 | hdir
      · exact Or.inl h0
      · by_cases hq : e.1.dropLast = p
        · rw [hq] at hdir
          exact absurd hdir hnd
        · refine Or.inr ?_
          rw [setFile, fsGet, if_neg (fun hh => hq hh.symm), fsGet_removeKey_ne hq, hdir]

theorem WFfs_removeKey_of_no_children {fs : Fs} {p : Fpath}
    (hwf : WFfs fs) (hch : childNames fs p = []) : WFfs (removeKey fs p) := by
  constructor
  · exact nodup_keysOf_removeKey hwf.1
  · intro e he
    obtain ⟨hin, hne⟩ := mem_removeKey.mp he
    obtain ⟨h1, h2⟩ := hwf.2 e hin
    refine ⟨h1, ?_⟩
    rcases h2 with h0 | hdir
    · exact Or.inl h0
    · by_cases hq : e.1.dropLast = p
      · exact absurd hch (childNames_ne_nil_of_child hin h1 hq)
      · refine Or.inr ?_
        rw [fsGet_removeKey_ne hq, hdir]

/-! ### Record-order bookkeeping -/

/-- The elements of `r` strictly after the first occurrence of `p`. -/
def afterOf : List Fpath → Fpath → List Fpath
  | [], _ => []
  | x :: rest, p => if x = p then rest else afterOf rest p

theorem afterOf_append_of_not_mem {r : List Fpath} {p : Fpath} (h : p ∉ r)
    (l : List Fpath) : afterOf (r ++ l) p = afterOf l p := by
  induction r with
  | nil => rfl
  | cons x rest ih =>
    rw [List.cons_append, afterOf,
      if_neg (fun hh => h (by rw [← hh]; exact List.mem_cons_self _ _))]
    exact ih fun hh => h (List.mem_cons_of_mem _ hh)

theorem afterOf_append_of_mem {r : List Fpath} {p : Fpath} (h : p ∈ r)
    (l : List Fpath) : afterOf (r ++ l) p = afterOf r p ++ l := by
  induction r with
  | nil => cases h
  | cons x rest ih =>
    rw [List.cons_append, afterOf, afterOf]
    by_cases hx : x = p
    · rw [if_pos hx, if_pos hx]
    · rw [if_neg hx, if_neg hx]
      exact ih (List.mem_cons.mp h |>.resolve_left fun hh => hx hh.symm)

theorem mem_afterOf_append {r : List Fpath} {p q : Fpath} (hp : p ∈ r)
    (hq : q ∈ afterOf r p) (l : List Fpath) : q ∈ afterOf (r ++ l) p := by
  rw [afterOf_append_of_mem hp]
  exact List.mem_append_left _ hq

theorem afterOf_last {r : List Fpath} {p : Fpath} (h : p ∉ r) :
    afterOf (r ++ [p]) p = [] := by
  rw [afterOf_append_of_not_mem h, afterOf, if_pos rfl]

/-! ### The deploy-loop invariant -/

/-- Invariant of the deploy loop relating the live target tree and the
accumulated deployment record: the tree is well-formed, the record has no
duplicates, every recorded path exists, and every on-disk child of a
recorded directory is recorded strictly after it. -/
def InvTR (fs : Fs) (r : List Fpath) : Prop :=
  WFfs fs ∧ r.Nodup ∧
    (∀ p ∈ r, (fsGet fs p).isSome) ∧
    (∀ p ∈ r, fsGet fs p = some .dir →
      ∀ q ∈ keysOf fs, q.dropLast = p → q ∈ afterOf r p)

theorem createDir_char {fs : Fs} {p : Fpath} {fs' : Fs}
    (h : createDir fs p = some fs') :
    fs' = (p, Node.dir) :: fs ∧ p ≠ [] ∧ fsGet fs p = none ∧
      isDirb fs p.dropLast = true := by
  rw [createDir] at h
  by_cases hex : existsb fs p = true
  · rw [if_pos hex] at h; exact Option.noConfusion h
  · rw [if_neg hex] at h
    by_cases hpar : isDirb fs p.dropLast = true
    · rw [if_pos hpar] at h
      simp only [existsb, Bool.or_eq_true, not_or] at hex
      refine ⟨(Option.some.inj h).symm, ?_, ?_, hpar⟩
      · intro hh
        exact hex.1 (by rw [hh]; rfl)
      · cases hg : fsGet fs p with
        | none => rfl
        | some m => exact absurd (by rw [hg]; rfl) hex.2
    · rw [if_neg hpar] at h; exact Option.noConfusion h

theorem copyFile_char {fs : Fs} {p : Fpath} {c : String} {t' : Fs}
    (h : copyFile fs p c = some t') :
    t' = setFile fs p c ∧ isDirb fs p = false ∧ p ≠ [] ∧
      ((fsGet fs p).isSome = true ∨ isDirb fs p.dropLast = true) := by
  rw [copyFile] at h
  by_cases hd : isDirb fs p = true
  · rw [if_pos hd] at h; exact Option.noConfusion h
  · rw [if_neg hd] at h
    have hdf : isDirb fs p = false := by
      revert hd; cases isDirb fs p <;> simp
    have hp : p ≠ [] := by
      intro hh
      exact hd (isDirb_iff.mpr (Or.inl hh))
    by_cases hs : (fsGet fs p).isSome = true
    · rw [if_pos hs] at h
      exact ⟨(Option.some.inj h).symm, hdf, hp, Or.inl hs⟩
    · rw [if_neg hs] at h
      by_cases hpar : isDirb fs p.dropLast = true
      · rw [if_pos hpar] at h
        exact ⟨(Option.some.inj h).symm, hdf, hp, Or.inr hpar⟩
      · rw [if_neg hpar] at h; exact Option.noConfusion h

theorem isPrefOf_iff {p q : Fpath} : isPrefOf p q = true ↔ p <+: q := by
  rw [isPrefOf]
  exact List.isPrefixOf_iff_prefix

theorem removeTree_eq_removeKey {fs : Fs} {p : Fpath}
    (h : ∀ e ∈ fs, isPrefOf p e.1 = true → e.1 = p) :
    removeTree fs p = removeKey fs p := by
  induction fs with
  | nil => rfl
  | cons e rest ih =>
    rw [removeTree, List.filter_cons, removeKey]
    by_cases he : e.1 = p
    · rw [if_pos he]
      have : isPrefOf p e.1 = true := isPrefOf_iff.mpr (he ▸ List.prefix_refl p)
      rw [this]
      simp only [Bool.not_true, Bool.false_eq_true, if_false]
      exact ih fun f hf => h f (List.mem_cons_of_mem _ hf)
    · rw [if_neg he]
      have : isPrefOf p e.1 = false := by
        cases hb : isPrefOf p e.1 with
        | false => rfl
        | true => exact absurd (h e (List.mem_cons_self _ _) hb) he
      rw [this]
      simp only [Bool.not_false, if_true]
      rw [removeTree] at ih
      rw [ih fun f hf => h f (List.mem_cons_of_mem _ hf)]

theorem renameToVault_file_target {target vault : Fs} {p : Fpath} {t' v' : Fs}
    (hwf : WFfs target) (h : renameToVault target vault p = some (t', v'))
    (hnd : isDirb target p = false) :
    (∃ c0, fsGet target p = some (Node.file c0)) ∧
      t' = removeKey target p ∧ p ≠ [] := by
  rw [renameToVault] at h
  cases hg : fsGet target p with
  | none =>
    simp only [hg] at h
    exact Option.noConfusion h
  | some n =>
    simp only [hg] at h
    have hp : p ≠ [] := (hwf.2 _ (fsGet_some_mem hg)).1
    cases n with
    | dir =>
      exfalso
      have := isDirb_iff.mpr (Or.inr hg)
      rw [hnd] at this
      exact Bool.noConfusion this
    | file c0 =>
      have htree : removeTree target p = removeKey target p := by
        refine removeTree_eq_removeKey fun e he hpre => ?_
        by_contra hne
        have hpq : p <+: e.1 := isPrefOf_iff.mp hpre
        have hkey : e.1 ∈ keysOf target := List.mem_map_of_mem _ he
        obtain ⟨m, hm⟩ := Option.isSome_iff_exists.mp (mem_keysOf_exists_node hkey)
        have := wf_ancestor_dir hwf e.1 m hm p hp hpq fun hh => hne hh.symm
        rw [hg] at this
        exact Node.noConfusion (Option.some.inj this)
      cases hvd : isDirb vault p.dropLast with
      | false =>
        simp only [hvd, Bool.not_false, if_true] at h
        exact Option.noConfusion h
      | true =>
        simp only [hvd, Bool.not_true, Bool.false_eq_true, if_false] at h
        cases hfv : fsGet vault p with
        | none =>
          simp only [hfv] at h
          have h1 : removeTree target p = t' := congrArg Prod.fst (Option.some.inj h)
          exact ⟨⟨c0, rfl⟩, by rw [← h1, htree], hp⟩
        | some m =>
          cases m with
          | dir =>
            simp only [hfv] at h
            exact Option.noConfusion h
          | file c1 =>
            simp only [hfv] at h
            have h1 : removeTree target p = t' := congrArg Prod.fst (Option.some.inj h)
            exact ⟨⟨c0, rfl⟩, by rw [← h1, htree], hp⟩

theorem finishCopy_success {s s' : StepState} {toRel : Fpath} {c : String}
    (h : finishCopy s toRel c = (s', none)) :
    ∃ t', copyFile s.target toRel c = some t' ∧
      s' = { s with
              target := t'
              result := if toRel ∈ s.result then s.result else s.result ++ [toRel] } := by
  rw [finishCopy] at h
  cases hc : copyFile s.target toRel c with
  | none =>
    simp only [hc, Prod.mk.injEq] at h
    exact Option.noConfusion h.2
  | some t' =>
    simp only [hc, Prod.mk.injEq] at h
    exact ⟨t', rfl, h.1.symm⟩

theorem invTR_createDir {fs : Fs} {r : List Fpath} {p : Fpath} {fs' : Fs}
    (hinv : InvTR fs r) (h : createDir fs p = some fs') :
    InvTR fs' (r ++ [p]) := by
  obtain ⟨hfs', hp, hnone, hpar⟩ := createDir_char h
  subst hfs'
  obtain ⟨hwf, hnd, hex, hord⟩ := hinv
  have hpar' : p.dropLast = [] ∨ fsGet fs p.dropLast = some .dir := by
    rcases isDirb_iff.mp hpar with h0 | h0
    · exact Or.inl h0
    · exact Or.inr h0
  have hpnotr : p ∉ r := fun hh => by
    have := hex p hh
    rw [hnone] at this
    cases this
  have hget : ∀ q, q ≠ p → fsGet ((p, Node.dir) :: fs) q = fsGet fs q := by
    intro q hq
    rw [fsGet, if_neg (fun hh => hq hh.symm)]
  refine ⟨WFfs_insertDir hwf hp hnone hpar', ?_, ?_, ?_⟩
  · exact hnd.append (List.nodup_singleton p) (List.disjoint_singleton.mpr hpnotr)
  · intro q hq
    rcases List.mem_append.mp hq with hq | hq
    · have hqp : q ≠ p := fun hh => hpnotr (hh ▸ hq)
      rw [hget q hqp]
      exact hex q hq
    · rw [List.mem_singleton.mp hq, fsGet, if_pos rfl]
      rfl
  · intro d hd hdir q hqk hqd
    rw [keysOf, List.map_cons, List.mem_cons] at hqk
    rcases List.mem_append.mp hd with hdr | hdp
    · have hdp' : d ≠ p := fun hh => hpnotr (hh ▸ hdr)
      rw [hget d hdp'] at hdir
      rcases hqk with hqp | hqk
      · rw [hqp]
        rw [afterOf_append_of_mem hdr]
        exact List.mem_append_right _ (List.mem_cons_self _ _)
      · have := hord d hdr hdir q hqk hqd
        exact mem_afterOf_append hdr this [p]
    · rw [List.mem_singleton.mp hdp] at hdir hqd ⊢
      rcases hqk with hqp | hqk
      · rw [hqp] at hqd
        exact absurd hqd (dropLast_ne_self hp)
      · exfalso
        obtain ⟨m, hm⟩ := Option.isSome_iff_exists.mp (mem_keysOf_exists_node hqk)
        have hent := hwf.2 _ (fsGet_some_mem hm)
        rcases hent.2 with h0 | h1
        · rw [hqd] at h0
          exact hp h0
        · rw [hqd, hnone] at h1
          exact Option.noConfusion h1

theorem invTR_setFile {fs : Fs} {r : List Fpath} {p : Fpath} {c : String}
    (hinv : InvTR fs r) (hnd : isDirb fs p = false)
    (hex2 : (fsGet fs p).isSome = true ∨ isDirb fs p.dropLast = true) (hp : p ≠ []) :
    InvTR (setFile fs p c) (if p ∈ r then r else r ++ [p]) := by
  obtain ⟨hwf, hndp, hexi, hord⟩ := hinv
  have hpnd : fsGet fs p ≠ some .dir := by
    intro hh
    have := isDirb_iff.mpr (Or.inr hh)
    rw [hnd] at this
    exact Bool.noConfusion this
  have hpar : p.dropLast = [] ∨ fsGet fs p.dropLast = some .dir := by
    rcases hex2 with hs | hdirp
    · obtain ⟨m, hm⟩ := Option.isSome_iff_exists.mp hs
      exact parent_cond_of_mem hwf hm
    · rcases isDirb_iff.mp hdirp with h0 | h0
      · exact Or.inl h0
      · exact Or.inr h0
  refine ⟨WFfs_setFile hwf hp hpnd hpar, ?_, ?_, ?_⟩
  · by_cases hpr : p ∈ r
    · rw [if_pos hpr]; exact hndp
    · rw [if_neg hpr]
      exact hndp.append (List.nodup_singleton p) (List.disjoint_singleton.mpr hpr)
  · intro q hq
    by_cases hqp : q = p
    · rw [hqp, fsGet_setFile_self]; rfl
    · rw [fsGet_setFile_ne hqp]
      refine hexi q ?_
      by_cases hpr : p ∈ r
      · rwa [if_pos hpr] at hq
      · rw [if_neg hpr] at hq
        rcases List.mem_append.mp hq with h | h
        · exact h
        · exact absurd (List.mem_singleton.mp h) hqp
  · intro d hd hdir q hqk hqd
    have hdnp : d ≠ p := by
      intro hh
      rw [hh, fsGet_setFile_self] at hdir
      exact Node.noConfusion (Option.some.inj hdir)
    have hdr : d ∈ r := by
      by_cases hpr : p ∈ r
      · rwa [if_pos hpr] at hd
      · rw [if_neg hpr] at hd
        rcases List.mem_append.mp hd with h | h
        · exact h
        · exact absurd (List.mem_singleton.mp h) hdnp
    have hdirfs : fsGet fs d = some .dir := by
      rw [← fsGet_setFile_ne (c := c) hdnp]
      exact hdir
    rcases mem_keysOf_setFile.mp hqk with hqp | ⟨hqk', hqnp⟩
    · rw [hqp] at hqd ⊢
      by_cases hs : (fsGet fs p).isSome = true
      · have hin := hord d hdr hdirfs p (fsGet_isSome_iff.mp hs) hqd
        by_cases hpr : p ∈ r
        · rw [if_pos hpr]; exact hin
        · rw [if_neg hpr]; exact mem_afterOf_append hdr hin [p]
      · have hpnr : p ∉ r := fun hh => hs (hexi p hh)
        rw [if_neg hpnr, afterOf_append_of_mem hdr]
        exact List.mem_append_right _ (List.mem_cons_self _ _)
    · have hin := hord d hdr hdirfs q hqk' hqd
      by_cases hpr : p ∈ r
      · rw [if_pos hpr]; exact hin
      · rw [if_neg hpr]; exact mem_afterOf_append hdr hin [p]

theorem finishCopy_moved {s s' : StepState} {toRel : Fpath} {c : String}
    {o : Option DeployErr} (h : finishCopy s toRel c = (s', o)) :
    s'.movedDir = s.movedDir := by
  rw [finishCopy] at h
  cases hc : copyFile s.target toRel c with
  | none =>
    simp only [hc, Prod.mk.injEq] at h
    rw [← h.1]
  | some t' =>
    simp only [hc, Prod.mk.injEq] at h
    rw [← h.1]

theorem processEntry_moved {u : List Fpath} {s s' : StepState} {e : Fpath × Node}
    {o : Option DeployErr} (h : processEntry u s e = (s', o))
    (hmv : s.movedDir = true) : s'.movedDir = true := by
  rw [processEntry] at h
  cases hre : find_case_insensitive_path s.target e.1 with
  | none =>
    simp only [hre, Prod.mk.injEq] at h
    rw [← h.1]
    exact hmv
  | some toRel =>
    simp only [hre] at h
    cases he : e.2 with
    | dir =>
      simp only [he] at h
      by_cases hd : isDirb s.target toRel = true
      · simp only [hd, if_true, Prod.mk.injEq] at h
        rw [← h.1]
        exact hmv
      · simp only [hd, if_false, Bool.false_eq_true] at h
        cases hcd : createDir s.target toRel with
        | none =>
          simp only [hcd, Prod.mk.injEq] at h
          rw [← h.1]
          exact hmv
        | some t' =>
          simp only [hcd, Prod.mk.injEq] at h
          rw [← h.1]
          exact hmv
    | file c =>
      simp only [he] at h
      by_cases hb : (existsb s.target toRel && u.contains toRel) = true
      · simp only [hb, if_true] at h
        cases hbd : createBackupDirs s.vault toRel.dropLast with
        | none =>
          simp only [hbd, Prod.mk.injEq] at h
          rw [← h.1]
          exact hmv
        | some v' =>
          simp only [hbd] at h
          cases hrn : renameToVault s.target v' toRel with
          | none =>
            simp only [hrn, Prod.mk.injEq] at h
            rw [← h.1]
            exact hmv
          | some tv =>
            obtain ⟨t', v''⟩ := tv
            simp only [hrn] at h
            rw [finishCopy_moved h]
            show (s.movedDir || isDirb s.target toRel) = true
            rw [hmv, Bool.true_or]
      · simp only [hb, if_false, Bool.false_eq_true] at h
        rw [finishCopy_moved h]
        exact hmv

theorem runEntries_moved {u : List Fpath} :
    ∀ {es : List (Fpath × Node)} {s s' : StepState} {o : Option DeployErr},
      runEntries u s es = (s', o) → s.movedDir = true → s'.movedDir = true := by
  intro es
  induction es with
  | nil =>
    intro s s' o h hmv
    rw [runEntries] at h
    have h1 : s = s' := congrArg Prod.fst h
    rw [← h1]
    exact hmv
  | cons e rest ih =>
    intro s s' o h hmv
    rw [runEntries] at h
    cases hp : processEntry u s e with
    | mk s1 o1 =>
      cases o1 with
      | none =>
        simp only [hp] at h
        exact ih h (processEntry_moved hp hmv)
      | some e1 =>
        simp only [hp, Prod.mk.injEq] at h
        rw [← h.1]
        exact processEntry_moved hp hmv

theorem processEntry_inv {u : List Fpath} {s s' : StepState} {e : Fpath × Node}
    (hinv : InvTR s.target s.result)
    (h : processEntry u s e = (s', none)) (hmv : s'.movedDir = false) :
    InvTR s'.target s'.result := by
  rw [processEntry] at h
  cases hre : find_case_insensitive_path s.target e.1 with
  | none =>
    simp only [hre, Prod.mk.injEq] at h
    exact Option.noConfusion h.2
  | some toRel =>
    simp only [hre] at h
    cases he : e.2 with
    | dir =>
      simp only [he] at h
      by_cases hd : isDirb s.target toRel = true
      · simp only [hd, if_true, Prod.mk.injEq] at h
        rw [← h.1]
        exact hinv
      · simp only [hd, if_false, Bool.false_eq_true] at h
        cases hcd : createDir s.target toRel with
        | none =>
          simp only [hcd, Prod.mk.injEq] at h
          exact Option.noConfusion h.2
        | some t' =>
          simp only [hcd, Prod.mk.injEq] at h
          rw [← h.1]
          exact invTR_createDir hinv hcd
    | file c =>
      simp only [he] at h
      by_cases hb : (existsb s.target toRel && u.contains toRel) = true
      · simp only [hb, if_true] at h
        cases hbd : createBackupDirs s.vault toRel.dropLast with
        | none =>
          simp only [hbd, Prod.mk.injEq] at h
          exact Option.noConfusion h.2
        | some v' =>
          simp only [hbd] at h
          cases hrn : renameToVault s.target v' toRel with
          | none =>
            simp only [hrn, Prod.mk.injEq] at h
            exact Option.noConfusion h.2
          | some tv =>
            obtain ⟨t', v''⟩ := tv
            simp only [hrn] at h
            obtain ⟨t2, hcp, hs'⟩ := finishCopy_success h
            have hmv1 : (s.movedDir || isDirb s.target toRel) = false := by
              have := finishCopy_moved h
              rw [hmv] at this
              exact this.symm
            have hndir : isDirb s.target toRel = false :=
              (Bool.or_eq_false_iff.mp hmv1).2
            obtain ⟨⟨c0, hc0⟩, ht', hp⟩ :=
              renameToVault_file_target hinv.1 hrn hndir
            subst ht'
            obtain ⟨ht2, -, -, -⟩ := copyFile_char hcp
            have ht2' : t2 = setFile s.target toRel c := by
              rw [ht2, setFile, setFile, removeKey_idem]
            have hres := invTR_setFile (c := c) hinv hndir (Or.inl (by rw [hc0]; rfl)) hp
            rw [hs']
            show InvTR t2 (if toRel ∈ s.result then s.result else s.result ++ [toRel])
            rw [ht2']
            exact hres
      · simp only [hb, if_false, Bool.false_eq_true] at h
        obtain ⟨t2, hcp, hs'⟩ := finishCopy_success h
        obtain ⟨ht2, hnd2, hp2, hpar2⟩ := copyFile_char hcp
        have hres := invTR_setFile (c := c) hinv hnd2 hpar2 hp2
        rw [hs']
        show InvTR t2 (if toRel ∈ s.result then s.result else s.result ++ [toRel])
        rw [ht2]
        exact hres

theorem runEntries_inv {u : List Fpath} :
    ∀ {es : List (Fpath × Node)} {s s' : StepState},
      InvTR s.target s.result → runEntries u s es = (s', none) →
      s'.movedDir = false → InvTR s'.target s'.result := by
  intro es
  induction es with
  | nil =>
    intro s s' h hrun hmv
    rw [runEntries] at hrun
    have h1 : s = s' := congrArg Prod.fst hrun
    rw [← h1]
    exact h
  | cons e rest ih =>
    intro s s' h hrun hmv
    rw [runEntries] at hrun
    cases hp : processEntry u s e with
    | mk s1 o1 =>
      cases o1 with
      | none =>
        simp only [hp] at hrun
        have hmv1 : s1.movedDir = false := by
          cases hb : s1.movedDir with
          | false => rfl
          | true =>
            rw [runEntries_moved hrun hb] at hmv
            exact Bool.noConfusion hmv
        exact ih (processEntry_inv h hp hmv1) hrun hmv
      | some e1 =>
        simp only [hp, Prod.mk.injEq] at hrun
        exact Option.noConfusion hrun.2

/-! ### The reverse-order removal argument (C5) -/

theorem removeLoop_reverse_ok :
    ∀ (r : List Fpath) (fs : Fs), WFfs fs → r.Nodup →
      (∀ p ∈ r, (fsGet fs p).isSome) →
      (∀ p ∈ r, fsGet fs p = some .dir →
        ∀ q ∈ keysOf fs, q.dropLast = p → q ∈ afterOf r p) →
      ∃ fs' evs, removeLoop fs r.reverse = (fs', none, evs) ∧
        evs.map (·.path) = r.reverse ∧ ∀ ev ∈ evs, ev.childCount = 0 := by
  intro r
  induction r using List.reverseRecOn with
  | nil =>
    intro fs hwf _ _ _
    exact ⟨fs, [], rfl, rfl, fun ev hev => absurd hev (List.not_mem_nil ev)⟩
  | append_singleton r' p ih =>
    intro fs hwf hnd hex hord
    have hrev : (r' ++ [p]).reverse = p :: r'.reverse := by
      rw [List.reverse_append]
      rfl
    have hnd2 := List.nodup_append.mp hnd
    have hpnr' : p ∉ r' := fun hm => hnd2.2.2 hm (List.mem_singleton_self p)
    have hpex := hex p (List.mem_append_right _ (List.mem_cons_self _ _))
    obtain ⟨n, hn⟩ := Option.isSome_iff_exists.mp hpex
    have hp : p ≠ [] := (hwf.2 _ (fsGet_some_mem hn)).1
    have hch : childNames fs p = [] := by
      cases n with
      | file c => exact childNames_nil_of_file hwf hn
      | dir =>
        by_contra hne
        obtain ⟨m, hm⟩ := List.exists_mem_of_ne_nil _ hne
        have hkey := childNames_mem hm
        have hdl : (p ++ [m]).dropLast = p := by rw [List.dropLast_concat]
        have := hord p (List.mem_append_right _ (List.mem_cons_self _ _)) hn
          (p ++ [m]) hkey hdl
        rw [afterOf_last hpnr'] at this
        cases this
    have hwf' : WFfs (removeKey fs p) := WFfs_removeKey_of_no_children hwf hch
    have hex' : ∀ q ∈ r', (fsGet (removeKey fs p) q).isSome := by
      intro q hq
      have hqp : q ≠ p := fun hh => hpnr' (hh ▸ hq)
      rw [fsGet_removeKey_ne hqp]
      exact hex q (List.mem_append_left _ hq)
    have hord' : ∀ d ∈ r', fsGet (removeKey fs p) d = some .dir →
        ∀ q ∈ keysOf (removeKey fs p), q.dropLast = d → q ∈ afterOf r' d := by
      intro d hd hdir q hqk hqd
      have hdp : d ≠ p := fun hh => hpnr' (hh ▸ hd)
      rw [fsGet_removeKey_ne hdp] at hdir
      obtain ⟨hqk', hqp⟩ := mem_keysOf_removeKey.mp hqk
      have hmem := hord d (List.mem_append_left _ hd) hdir q hqk' hqd
      rw [afterOf_append_of_mem hd] at hmem
      rcases List.mem_append.mp hmem with h1 | h1
      · exact h1
      · exact absurd (List.mem_singleton.mp h1) hqp
    obtain ⟨fs', evs, hrl, hmap, hcnt⟩ := ih (removeKey fs p) hwf' hnd2.1 hex' hord'
    rw [hrev]
    cases n with
    | dir =>
      have hdb : isDirb fs p = true := isDirb_iff.mpr (Or.inr hn)
      have hrm : removeDirFs fs p = some (removeKey fs p) := by
        rw [removeDirFs, hn, if_pos hch]
      refine ⟨fs', ⟨p, true, (childNames fs p).length⟩ :: evs, ?_, ?_, ?_⟩
      · rw [removeLoop]
        simp only [hdb, if_true, hrm, hrl]
      · simp only [List.map_cons, hmap]
      · intro ev hev
        rcases List.mem_cons.mp hev with h1 | h1
        · rw [h1, hch]
          rfl
        · exact hcnt ev h1
    | file c =>
      have hdb : isDirb fs p = false := by
        cases p with
        | nil => exact absurd rfl hp
        | cons x xs => rw [isDirb, hn]; rfl
      have hrm : removeFileFs fs p = some (removeKey fs p) := by
        rw [removeFileFs, hn]
      refine ⟨fs', ⟨p, false, (childNames fs p).length⟩ :: evs, ?_, ?_, ?_⟩
      · rw [removeLoop]
        simp only [hdb, Bool.false_eq_true, if_false, hrm, hrl]
      · simp only [List.map_cons, hmap]
      · intro ev hev
        rcases List.mem_cons.mp hev with h1 | h1
        · rw [h1, hch]
          rfl
        · exact hcnt ev h1

theorem undeploy_remPhase (st : ToryggState) (record : List Fpath)
    (h : st.deployed = some record) {fs' : Fs} {evs : List RemEvent}
    (hrl : removeLoop st.target record.reverse = (fs', none, evs)) :
    st.undeploy.remErr = none ∧ st.undeploy.remTrace = evs := by
  rw [ToryggState.undeploy.eq_def]
  simp only [h, hrl]
  cases hres : restoreLoop fs' st.vault (sortByDepthDesc st.vault) with
  | mk t2 pr =>
    obtain ⟨v2, e2⟩ := pr
    exact ⟨trivial, trivial⟩

/-- C5 (amended): for every deployment record produced by a successful
deploy pass during which no directory was displaced into the backup vault
(`movedDir = false` — without this proviso a mod file can shadow an
unmanaged directory, move it with its recorded contents into the vault,
and a recorded path is then missing at undeploy time), undeploy's removal
phase processes exactly the recorded paths in exact reverse record order,
removes a path that is a directory with the empty-directory removal and a
file with the file removal, succeeds entirely, and at every single
removal the path has zero children — it never attempts to remove a
non-empty directory. -/
theorem c5_reverse_order_undeploy (st : ToryggState) (mods : List ModWalk)
    (out : DeployOut) (hwf : WFfs st.target) (hd : st.deployed = none)
    (hdep : st.deploy (some mods) = out) (herr : out.err = none)
    (hmv : out.movedDir = false) (r : List Fpath) (hr : out.state.deployed = some r) :
    out.state.undeploy.remErr = none ∧
    out.state.undeploy.remTrace.map (·.path) = r.reverse ∧
    ∀ ev ∈ out.state.undeploy.remTrace, ev.childCount = 0 := by
  subst hdep
  rw [ToryggState.deploy.eq_def] at herr hmv hr ⊢
  simp only [hd, Option.isSome_none, Bool.false_eq_true, if_false] at herr hmv hr ⊢
  cases hrun : runEntries (keysOf st.target)
      ⟨st.target, st.vault, [], false, []⟩ mods.flatten with
  | mk s o =>
    cases o with
    | some e1 =>
      simp only [hrun] at herr
      exact Option.noConfusion herr
    | none =>
      simp only [hrun] at herr hmv hr ⊢
      by_cases hne : s.result.isEmpty = true
      · simp only [hne, if_true] at hr
        exact Option.noConfusion hr
      · simp only [hne, if_false, Bool.false_eq_true] at hmv hr ⊢
        have hrr : s.result = r := Option.some.inj hr
        have hmv' : s.movedDir = false := hmv
        have hinv0 : InvTR st.target ([] : List Fpath) :=
          ⟨hwf, List.nodup_nil, fun p hp => absurd hp (List.not_mem_nil p),
            fun p hp => absurd hp (List.not_mem_nil p)⟩
        have hinv := runEntries_inv hinv0 hrun hmv'
        obtain ⟨hw, hn, he, ho⟩ := hinv
        rw [hrr] at hn he ho
        obtain ⟨fs', evs, hrl, hmap, hcnt⟩ :=
          removeLoop_reverse_ok r s.target hw hn he ho
        have h1 : (⟨s.target, s.vault, some s.result⟩ : ToryggState).deployed = some r := by
          show some s.result = some r
          rw [hrr]
        have hrl' : removeLoop (⟨s.target, s.vault, some s.result⟩ : ToryggState).target
            r.reverse = (fs', none, evs) := hrl
        have hphase := undeploy_remPhase ⟨s.target, s.vault, some s.result⟩ r h1 hrl'
        exact ⟨hphase.1, by rw [hphase.2, hmap], fun ev hev => hcnt ev (hphase.2 ▸ hev)⟩

def c5St : ToryggState := ⟨[], [], none⟩

def c5Mods : List ModWalk :=
  [[(["dirA"], Node.dir), (["dirA", "file1"], Node.file "x"), (["dirB"], Node.dir)]]

def c5Out : DeployOut := c5St.deploy (some c5Mods)

/-- C5 (witness): the amended theorem applied to the spec's own example
record `[dirA, dirA/file1, dirB]`: undeploy removes `dirB`, then
`dirA/file1`, then `dirA`, each with zero children at removal time. -/
theorem c5_reverse_order_undeploy_witness :
    WFfs c5St.target ∧ c5St.deployed = none ∧ c5Out.err = none ∧
    c5Out.movedDir = false ∧
    c5Out.state.deployed = some [["dirA"], ["dirA", "file1"], ["dirB"]] ∧
    (c5Out.state.undeploy.remErr = none ∧
      c5Out.state.undeploy.remTrace.map (·.path) =
        [["dirA"], ["dirA", "file1"], ["dirB"]].reverse ∧
      ∀ ev ∈ c5Out.state.undeploy.remTrace, ev.childCount = 0) :=
  ⟨WFfs_nil, rfl, by decide, by decide, by decide,
    c5_reverse_order_undeploy c5St c5Mods c5Out WFfs_nil rfl rfl
      (by decide) (by decide) [["dirA"], ["dirA", "file1"], ["dirB"]] (by decide)⟩

def c5xSt : ToryggState := ⟨[(["a"], Node.dir)], [], none⟩

def c5xMods : List ModWalk :=
  [[(["a"], Node.dir), (["a", "f"], Node.file "m1")], [(["a"], Node.file "m2")]]

/-- C5 (counterexample to the claim as stated): a mod file shadowing the
pre-existing directory `a` moves the whole directory — including the
recorded path `a/f` deployed under it by an earlier mod — into the backup
vault.  The deploy pass succeeds with record `[a/f, a]`, yet undeploy's
removal phase fails (`remove_file` of the recorded path `a/f`, which is no
longer on disk): undeploy does not remove every recorded path. -/
theorem c5_counterexample :
    (c5xSt.deploy (some c5xMods)).err = none ∧
    (c5xSt.deploy (some c5xMods)).state.deployed = some [["a", "f"], ["a"]] ∧
    (c5xSt.deploy (some c5xMods)).movedDir = true ∧
    (c5xSt.deploy (some c5xMods)).state.undeploy.remErr = some .ioError :=
  ⟨by decide, by decide, by decide, by decide⟩

/-! ## The mount session (src/applauncher.rs)

`AppLauncher::mount_path` and `AppLauncher::unmount_all`, with the external
tools (`fuse-overlayfs`, `umount`) and the filesystem renames supplied as
oracle parameters: `ToolOutcome` is the result of spawning and waiting on a
tool, the `Bool` oracles are the outcomes of `fs::rename` / `fs::create_dir`.
The paths handled here are absolute; `renderPath` renders them for the
`-o lowerdir=...,upperdir=...,workdir=...` argument. -/

inductive ToolOutcome where
  | spawnErr
  | waitErr
  | exitFail
  | success
deriving DecidableEq

structure AppLauncher where
  mounted_paths : List Fpath
deriving DecidableEq

def renderPath (p : Fpath) : String := "/" ++ String.intercalate "/" p

/-- `std::env::join_paths`: fails when any path contains the separator. -/
def joinPaths (ps : List Fpath) : Option String :=
  if ps.any (fun p => p.any fun s => s.data.any (· == ':')) then none
  else some (String.intercalate ":" (ps.map renderPath))

inductive MountErr where
  | noLastComponent
  | noParent
  | joinFail
  | renameFail
  | mkdirFail
  | spawnFail
  | childFail
deriving DecidableEq

structure MountOut where
  launcher : AppLauncher
  err : Option MountErr
  overlayArg : Option String
deriving DecidableEq

/-- `AppLauncher::mount_path`.  For a non-empty component list `parent()`
is always defined, so the `noParent` error (`"Path has no parent"`) is
unreachable in the model. -/
def mount_path (st : AppLauncher) (path : Fpath) (lower_paths : List Fpath)
    (upper_path work_path : Fpath) (renameOk mkdirOk : Bool)
    (tool : ToolOutcome) : MountOut :=
  match path.getLast? with
  | none => ⟨st, some .noLastComponent, none⟩
  | some last =>
    let backup_path := path.dropLast ++ [last ++ "~"]
    match joinPaths (lower_paths ++ [backup_path]) with
    | none => ⟨st, some .joinFail, none⟩
    | some lowerStr =>
      if !renameOk then ⟨st, some .renameFail, none⟩
      else if !mkdirOk then ⟨st, some .mkdirFail, none⟩
      else
        let arg := "lowerdir=" ++ lowerStr ++ ",upperdir=" ++ renderPath upper_path
          ++ ",workdir=" ++ renderPath work_path
        match tool with
        | .spawnErr => ⟨st, some .spawnFail, some arg⟩
        | .waitErr => ⟨st, some .childFail, some arg⟩
        | .exitFail => ⟨st, some .childFail, some arg⟩
        | .success => ⟨⟨st.mounted_paths ++ [path]⟩, none, some arg⟩

/-- The body of the `retain` closure of `unmount_all` for one path:
whether the entry is kept in the active list, and whether a restore
failure is logged for it (`"Failed to restore path"` or a failed
rename-back). -/
def retainStep (tool : Fpath → ToolOutcome) (restoreOk : Fpath → Bool)
    (p : Fpath) : Bool × Option Fpath :=
  match tool p with
  | .spawnErr => (true, none)
  | .waitErr => (true, none)
  | .exitFail => (true, none)
  | .success =>
    match p.getLast? with
    | none => (false, some p)
    | some _ => if restoreOk p then (false, none) else (false, some p)

/-- `Vec::retain` over the active list, also collecting the logged
restore failures. -/
def retainLoop (tool : Fpath → ToolOutcome) (restoreOk : Fpath → Bool) :
    List Fpath → List Fpath × List Fpath
  | [] => ([], [])
  | p :: rest =>
    match retainStep tool restoreOk p, retainLoop tool restoreOk rest with
    | (keep, rlog), (kept, rfails) =>
      (if keep then p :: kept else kept,
        match rlog with
        | none => rfails
        | some q => q :: rfails)

structure UnmountOut where
  launcher : AppLauncher
  ok : Bool
  reported : List Fpath
  restoreFailed : List Fpath
deriving DecidableEq

/-- `AppLauncher::unmount_all`.  `reported` is the list of paths named by
the final `"Failed to unmount: ..."` error report. -/
def unmount_all (st : AppLauncher) (tool : Fpath → ToolOutcome)
    (restoreOk : Fpath → Bool) : UnmountOut :=
  if st.mounted_paths.isEmpty then ⟨st, true, [], []⟩
  else
    match retainLoop tool restoreOk st.mounted_paths with
    | (kept, rfails) =>
      if kept.isEmpty then ⟨⟨kept⟩, true, [], rfails⟩
      else ⟨⟨kept⟩, false, kept, rfails⟩

theorem retainLoop_kept (tool : Fpath → ToolOutcome) (restoreOk : Fpath → Bool) :
    ∀ l : List Fpath, (retainLoop tool restoreOk l).1 =
      l.filter fun q => decide (tool q ≠ ToolOutcome.success) := by
  intro l
  induction l with
  | nil => rfl
  | cons p rest ih =>
    rw [retainLoop, List.filter_cons]
    cases hs : retainStep tool restoreOk p with
    | mk keep rlog =>
      cases hr : retainLoop tool restoreOk rest with
      | mk kept rfails =>
        have hkeep : keep = decide (tool p ≠ ToolOutcome.success) := by
          rw [retainStep] at hs
          cases ht : tool p with
          | spawnErr => rw [ht] at hs; cases hs; rfl
          | waitErr => rw [ht] at hs; cases hs; rfl
          | exitFail => rw [ht] at hs; cases hs; rfl
          | success =>
            rw [ht] at hs
            cases hl : p.getLast? with
            | none => rw [hl] at hs; cases hs; rfl
            | some x =>
              rw [hl] at hs
              by_cases hro : restoreOk p = true
              · rw [if_pos hro] at hs; cases hs; rfl
              · rw [if_neg hro] at hs; cases hs; rfl
        have hkept : kept = rest.filter fun q => decide (tool q ≠ ToolOutcome.success) := by
          rw [← ih, hr]
        simp only [hs, hr]
        rw [hkeep, hkept]

theorem retainLoop_rfails_mem (tool : Fpath → ToolOutcome) (restoreOk : Fpath → Bool) :
    ∀ (l : List Fpath) (p : Fpath), p ∈ l → tool p = .success → restoreOk p = false →
      p ∈ (retainLoop tool restoreOk l).2 := by
  intro l
  induction l with
  | nil => intro p hp; cases hp
  | cons q rest ih =>
    intro p hp hts hro
    rw [retainLoop]
    cases hs : retainStep tool restoreOk q with
    | mk keep rlog =>
      cases hr : retainLoop tool restoreOk rest with
      | mk kept rfails =>
        rcases List.mem_cons.mp hp with hp | hp
        · have hlog : rlog = some q := by
            rw [retainStep, ← hp, hts] at hs
            cases hl : p.getLast? with
            | none => rw [hl] at hs; cases hs; rw [hp]
            | some x =>
              rw [hl, hro] at hs
              simp only [Bool.false_eq_true, if_false] at hs
              cases hs
              rw [hp]
          rw [hlog, hp]
          exact List.mem_cons_self _ _
        · have hmem := ih p hp hts hro
          rw [hr] at hmem
          cases rlog with
          | none => exact hmem
          | some q' => exact List.mem_cons_of_mem _ hmem

/-- C6: `unmount_all` attempts the unmount tool for every active path;
exactly the paths whose unmount attempt failed (spawn error, wait error,
non-success exit) remain in the active list, eligible for retry; the call
returns success if and only if the active list is empty afterwards, and
otherwise its error report names exactly the paths still remaining. -/
theorem c6_unmount_all_retry (st : AppLauncher) (tool : Fpath → ToolOutcome)
    (restoreOk : Fpath → Bool) :
    (unmount_all st tool restoreOk).launcher.mounted_paths =
      (st.mounted_paths.filter fun q => decide (tool q ≠ ToolOutcome.success)) ∧
    ((unmount_all st tool restoreOk).ok = true ↔
      (unmount_all st tool restoreOk).launcher.mounted_paths = []) ∧
    ((unmount_all st tool restoreOk).ok = false →
      (unmount_all st tool restoreOk).reported =
        (unmount_all st tool restoreOk).launcher.mounted_paths) ∧
    (∀ p ∈ st.mounted_paths, tool p ≠ ToolOutcome.success →
      p ∈ (unmount_all st tool restoreOk).launcher.mounted_paths) := by
  have hkept := retainLoop_kept tool restoreOk st.mounted_paths
  have hmain :
      (unmount_all st tool restoreOk).launcher.mounted_paths =
        (st.mounted_paths.filter fun q => decide (tool q ≠ ToolOutcome.success)) ∧
      ((unmount_all st tool restoreOk).ok = true ↔
        (unmount_all st tool restoreOk).launcher.mounted_paths = []) ∧
      ((unmount_all st tool restoreOk).ok = false →
        (unmount_all st tool restoreOk).reported =
          (unmount_all st tool restoreOk).launcher.mounted_paths) := by
    rw [unmount_all]
    by_cases hemp : st.mounted_paths.isEmpty = true
    · rw [if_pos hemp]
      have : st.mounted_paths = [] := List.isEmpty_iff.mp hemp
      rw [this]
      exact ⟨rfl, by simp, by intro h; cases h⟩
    · rw [if_neg hemp]
      cases hr : retainLoop tool restoreOk st.mounted_paths with
      | mk kept rfails =>
        have hk : kept = st.mounted_paths.filter
            fun q => decide (tool q ≠ ToolOutcome.success) := by
          rw [← hkept, hr]
        cases hke : kept.isEmpty with
        | true =>
          simp only [hke, if_true]
          refine ⟨hk, ?_, ?_⟩
          · simp only [true_iff]
            exact List.isEmpty_iff.mp hke
          · intro h; cases h
        | false =>
          simp only [hke, Bool.false_eq_true, if_false]
          refine ⟨hk, ?_, fun _ => by trivial⟩
          constructor
          · intro h; cases h
          · intro h
            rw [h] at hke
            exact Bool.noConfusion hke
  refine ⟨hmain.1, hmain.2.1, hmain.2.2, ?_⟩
  intro p hp ht
  rw [hmain.1, List.mem_filter]
  exact ⟨hp, by simp [ht]⟩

/-- C10: when the unmount tool succeeds for a path but the rename of the
backup sibling back onto the target fails, the path is nevertheless
dropped from the active list — the restore failure is only logged
(`restoreFailed`) — so it cannot be retried by a later `unmount_all`
call, and `unmount_all` still returns overall success whenever every
unmount-tool invocation succeeded, even though this target was not
restored. -/
theorem c10_restore_failure_dropped (st : AppLauncher) (tool : Fpath → ToolOutcome)
    (restoreOk : Fpath → Bool) (p : Fpath) (hp : p ∈ st.mounted_paths)
    (hts : tool p = ToolOutcome.success) (hro : restoreOk p = false) :
    p ∉ (unmount_all st tool restoreOk).launcher.mounted_paths ∧
    p ∈ (unmount_all st tool restoreOk).restoreFailed ∧
    ((∀ q ∈ st.mounted_paths, tool q = ToolOutcome.success) →
      (unmount_all st tool restoreOk).ok = true) := by
  have hc6 := c6_unmount_all_retry st tool restoreOk
  have hnotmem : p ∉ (unmount_all st tool restoreOk).launcher.mounted_paths := by
    rw [hc6.1, List.mem_filter]
    rintro ⟨-, hdec⟩
    rw [hts] at hdec
    simp at hdec
  have hne : st.mounted_paths.isEmpty = false := by
    cases hl : st.mounted_paths with
    | nil => rw [hl] at hp; cases hp
    | cons a l => rfl
  refine ⟨hnotmem, ?_, ?_⟩
  · rw [unmount_all, hne]
    simp only [Bool.false_eq_true, if_false]
    cases hr : retainLoop tool restoreOk st.mounted_paths with
    | mk kept rfails =>
      have hmem := retainLoop_rfails_mem tool restoreOk st.mounted_paths p hp hts hro
      rw [hr] at hmem
      cases hke : kept.isEmpty with
      | true => simp only [hke, if_true]; exact hmem
      | false => simp only [hke, Bool.false_eq_true, if_false]; exact hmem
  · intro hall
    rw [hc6.2.1, hc6.1]
    rw [List.filter_eq_nil_iff]
    intro q hq
    simp [hall q hq]

/-- C7: backup naming, lowerdir ordering and the active-list contract of
`mount_path`: the backup path is the target's parent joined with the
target's last component suffixed by `~`; the backup is appended to the
lower-layer list as its final — lowest-priority — entry, and the
`lowerdir` string passed to the overlay tool joins the layers with the
path-list separator `:` in that order (earlier entries first, i.e.
highest priority first, the backed-up original contents last); the target
is appended to the session's active list exactly when the rename, the
directory recreation and the overlay tool all succeed. -/
theorem c7_mount_path_lowerdir (st : AppLauncher) (p : Fpath) (x : String)
    (lower : List Fpath) (upper work : Fpath) (renameOk mkdirOk : Bool)
    (tool : ToolOutcome)
    (hcolon : ((lower ++ [p ++ [x ++ "~"]]).any
      (fun q => q.any fun s => s.data.any (· == ':'))) = false) :
    ((renameOk = true ∧ mkdirOk = true) →
      (mount_path st (p ++ [x]) lower upper work renameOk mkdirOk tool).overlayArg =
        some ("lowerdir=" ++
          String.intercalate ":" ((lower ++ [p ++ [x ++ "~"]]).map renderPath) ++
          ",upperdir=" ++ renderPath upper ++ ",workdir=" ++ renderPath work)) ∧
    ((mount_path st (p ++ [x]) lower upper work renameOk mkdirOk tool).launcher.mounted_paths =
        st.mounted_paths ++ [p ++ [x]] ↔
      renameOk = true ∧ mkdirOk = true ∧ tool = ToolOutcome.success) ∧
    (¬(renameOk = true ∧ mkdirOk = true ∧ tool = ToolOutcome.success) →
      (mount_path st (p ++ [x]) lower upper work renameOk mkdirOk tool).launcher = st) := by
  have hjoin : joinPaths (lower ++ [(p ++ [x]).dropLast ++ [x ++ "~"]]) =
      some (String.intercalate ":" ((lower ++ [p ++ [x ++ "~"]]).map renderPath)) := by
    rw [List.dropLast_concat, joinPaths, hcolon]
    rfl
  rw [mount_path]
  simp only [List.getLast?_concat, List.dropLast_concat] at hjoin ⊢
  rw [hjoin]
  have hself : ∀ q : Fpath, st.mounted_paths ≠ st.mounted_paths ++ [q] := by
    intro q hh
    have := congrArg List.length hh
    rw [List.length_append] at this
    simp at this
  cases renameOk with
  | false =>
    simp only [Bool.not_false, if_true]
    refine ⟨?_, ?_, fun _ => by trivial⟩
    · rintro ⟨h1, -⟩; cases h1
    · constructor
      · intro h; exact absurd h (hself _)
      · rintro ⟨h1, -⟩; cases h1
  | true =>
    cases mkdirOk with
    | false =>
      simp only [Bool.not_true, Bool.false_eq_true, if_false, Bool.not_false, if_true]
      refine ⟨?_, ?_, fun _ => by trivial⟩
      · rintro ⟨-, h2⟩; cases h2
      · constructor
        · intro h; exact absurd h (hself _)
        · rintro ⟨-, h2, -⟩; cases h2
    | true =>
      simp only [Bool.not_true, Bool.false_eq_true, if_false]
      cases tool with
      | spawnErr =>
        refine ⟨fun _ => by trivial, ?_, fun _ => by trivial⟩
        constructor
        · intro h; exact absurd h (hself _)
        · rintro ⟨-, -, h3⟩; cases h3
      | waitErr =>
        refine ⟨fun _ => by trivial, ?_, fun _ => by trivial⟩
        constructor
        · intro h; exact absurd h (hself _)
        · rintro ⟨-, -, h3⟩; cases h3
      | exitFail =>
        refine ⟨fun _ => by trivial, ?_, fun _ => by trivial⟩
        constructor
        · intro h; exact absurd h (hself _)
        · rintro ⟨-, -, h3⟩; cases h3
      | success =>
        refine ⟨fun _ => by trivial, ?_, ?_⟩
        · exact ⟨fun _ => ⟨by trivial, by trivial, by trivial⟩, fun _ => by trivial⟩
        · intro hcon
          exact absurd ⟨by trivial, by trivial, by trivial⟩ hcon

/-- C7 (witness): the mount contract evaluated on a concrete target
`/games/Skyrim/Data` with one mod layer: the lowerdir string lists the mod
first and the backup `/games/Skyrim/Data~` last, and the target is
appended to the active list after tool success. -/
theorem c7_mount_path_witness :
    (mount_path ⟨[]⟩ (["games", "Skyrim"] ++ ["Data"]) [["mods", "A"]]
        ["up"] ["wk"] true true ToolOutcome.success).overlayArg =
      some "lowerdir=/mods/A:/games/Skyrim/Data~,upperdir=/up,workdir=/wk" ∧
    (mount_path ⟨[]⟩ (["games", "Skyrim"] ++ ["Data"]) [["mods", "A"]]
        ["up"] ["wk"] true true ToolOutcome.success).launcher.mounted_paths =
      [] ++ [["games", "Skyrim"] ++ ["Data"]] := by
  have h := c7_mount_path_lowerdir ⟨[]⟩ ["games", "Skyrim"] "Data" [["mods", "A"]]
    ["up"] ["wk"] true true ToolOutcome.success (by decide)
  refine ⟨?_, (h.2.1).mpr ⟨rfl, rfl, rfl⟩⟩
  rw [h.1 ⟨rfl, rfl⟩]
  rfl

/-- C10 (witness): one mounted path, tool success, restore rename failure:
the path leaves the active list, lands in the restore-failure log, and the
call still returns success. -/
theorem c10_restore_failure_witness :
    ["m"] ∈ (⟨[["m"]]⟩ : AppLauncher).mounted_paths ∧
    ["m"] ∉ (unmount_all ⟨[["m"]]⟩ (fun _ => ToolOutcome.success)
      (fun _ => false)).launcher.mounted_paths ∧
    ["m"] ∈ (unmount_all ⟨[["m"]]⟩ (fun _ => ToolOutcome.success)
      (fun _ => false)).restoreFailed ∧
    (unmount_all ⟨[["m"]]⟩ (fun _ => ToolOutcome.success)
      (fun _ => false)).ok = true := by
  have h := c10_restore_failure_dropped ⟨[["m"]]⟩ (fun _ => ToolOutcome.success)
    (fun _ => false) ["m"] (List.mem_cons_self _ _) rfl rfl
  exact ⟨List.mem_cons_self _ _, h.1, h.2.1, h.2.2 fun q _ => rfl⟩

end Torygg
